import Mathlib

/-!
Shallow embedding of the RustOmic quantum-circuit simulator core
(`src/core/mod.rs`), together with proofs about it.

Modelling conventions:
* the extended-precision complex scalar `fx128` is modelled as `ℂ`
  (exact real arithmetic); `x.0`/`x.1` become `re`/`im`;
* `faer::Mat<C>` (a dense matrix with runtime dimensions) is modelled as
  `RMat`: a pair of dimensions plus a total entry function; all consumers
  only read entries inside the stated dimensions;
* fallible Rust functions returning `Option`/`Result` are modelled with
  `Option`/`Except`; `&mut self` methods returning `Result<(), ()>` are
  modelled as functions returning the pair (result, post-state).
-/

namespace RustOmic

open Matrix

noncomputable section

/-- Scalar type: `pub type C = fx128`, modelled as `ℂ`. -/
abbrev C := ℂ

/-- `pub fn norm(x: fx128) -> f64 { (x.0 * x.0 + x.1 * x.1).sqrt() }` -/
def norm (x : C) : ℝ := Real.sqrt (x.re * x.re + x.im * x.im)

/-- Dense complex matrix with runtime dimensions (`faer::Mat<C>`).
Entries outside `nrows × ncols` are junk and are never read. -/
structure RMat where
  nrows : ℕ
  ncols : ℕ
  entry : ℕ → ℕ → C

/-- View of an `RMat` as a square Mathlib matrix of size `m`. -/
def toM (a : RMat) (m : ℕ) : Matrix (Fin m) (Fin m) C :=
  Matrix.of fun i j => a.entry i.val j.val

/-- `faer` determinant (trusted numeric primitive; only called on square
matrices), modelled by the Mathlib determinant of the square view. -/
def RMat.det (a : RMat) : C := (toM a a.nrows).det

/-- `faer` adjoint (conjugate transpose). -/
def RMat.adjoint (a : RMat) : RMat :=
  ⟨a.ncols, a.nrows, fun i j => star (a.entry j i)⟩

/-- `faer` matrix product. -/
def RMat.mul (a b : RMat) : RMat :=
  ⟨a.nrows, b.ncols, fun i j => ∑ k in Finset.range a.ncols, a.entry i k * b.entry k j⟩

/-- Identity-deviation tolerance `1E-5` of `is_identity`. -/
def idTol : ℝ := 1 / 100000

/-- Determinant-magnitude tolerance `1E-10` of `is_unit`. -/
def detTol : ℝ := 1 / 10000000000

/-- `pub fn is_identity(m: &Mat<C>) -> bool` (src/core/mod.rs:27-47):
square, diagonal entries within `1E-5` of one, off-diagonal entries of
magnitude at most `1E-5`. -/
def is_identity (m : RMat) : Prop :=
  m.ncols = m.nrows ∧
  ∀ i j, i < m.ncols → j < m.ncols →
    (if i = j then norm (m.entry i j - 1) ≤ idTol else norm (m.entry i j) ≤ idTol)

/-- `pub fn is_unit(mat: &Mat<C>) -> bool` (src/core/mod.rs:49-60):
determinant magnitude at least `1E-10`, and `mat * adjoint(mat)` passes
`is_identity`. -/
def is_unit (mat : RMat) : Prop :=
  detTol ≤ norm mat.det ∧ is_identity (mat.mul mat.adjoint)

/-- The `HashSet`-insertion loop of `Gate::new` that rejects duplicate
targets: walks the list, returns `true` as soon as an element was already
seen. -/
def findDup : List ℕ → Finset ℕ → Bool
  | [], _ => false
  | t :: rest, seen => if t ∈ seen then true else findDup rest (insert t seen)

/-- `pub struct Gate { mat: Mat<C>, targets: Vec<usize> }` -/
structure Gate where
  mat : RMat
  targets : List ℕ

open Classical in
/-- `Gate::new` (src/core/mod.rs:63-82): square check, dimension check
against `2^targets.len()`, unitarity check, duplicate-target check, in
source order. -/
def Gate.new (mat : RMat) (targets : List ℕ) : Option Gate :=
  if mat.ncols ≠ mat.nrows then none
  else if mat.ncols ≠ 2 ^ targets.length then none
  else if ¬ is_unit mat then none
  else if findDup targets ∅ then none
  else some ⟨mat, targets⟩

/-- The 2×2 matrix literal `mat![[a, b], [c, d]]`. -/
def mat2 (a b c d : C) : RMat :=
  ⟨2, 2, fun i j => if i = 0 then (if j = 0 then a else b) else (if j = 0 then c else d)⟩

/-- `let x = C::from_f64(1.0 / (2.0 as f64).sqrt())` of `Gate::h`,
idealised as the exact real `1 / √2`. -/
def hVal : C := Complex.ofReal (1 / Real.sqrt 2)

/-- The Hadamard matrix `mat![[x, x], [x, -x]]` of `Gate::h`. -/
def Hmat : RMat := mat2 hVal hVal hVal (-hVal)

/-- The Pauli-X matrix `mat![[Z, ONE], [ONE, Z]]` of `Gate::x`. -/
def Xmat : RMat := mat2 0 1 1 0

/-- `Gate::h(target)` = `Gate::new(mat![[x,x],[x,-x]], vec![target]).unwrap()`
(src/core/mod.rs:88-91).  The `unwrap` is justified by the theorem
`gate_h_x_never_fail` below, which proves
`Gate.new Hmat [target] = some (Gate.h target)`. -/
def Gate.h (target : ℕ) : Gate := ⟨Hmat, [target]⟩

/-- `Gate::x(target)` = `Gate::new(mat![[Z,ONE],[ONE,Z]], vec![target]).unwrap()`
(src/core/mod.rs:93-95); the `unwrap` is likewise justified by
`gate_h_x_never_fail`. -/
def Gate.x (target : ℕ) : Gate := ⟨Xmat, [target]⟩

/-- The matrix built by `Gate::controlled` (src/core/mod.rs:105-116):
`Mat::identity(2^total, 2^total)` with the trailing
`m.ncols × m.ncols` block overwritten by `m`. -/
def ctrlMat (m : RMat) (total : ℕ) : RMat :=
  ⟨2 ^ total, 2 ^ total, fun i j =>
    if 2 ^ total - m.ncols ≤ i ∧ i < 2 ^ total ∧ 2 ^ total - m.ncols ≤ j ∧ j < 2 ^ total
    then m.entry (i - (2 ^ total - m.ncols)) (j - (2 ^ total - m.ncols))
    else if i = j then 1 else 0⟩

/-- `Gate::controlled` (src/core/mod.rs:105-118). -/
def Gate.controlled (g : Gate) (controls : List ℕ) : Option Gate :=
  Gate.new (ctrlMat g.mat (g.targets.length + controls.length)) (g.targets ++ controls)

/-- `Gate::cnx` (src/core/mod.rs:101-103). -/
def Gate.cnx (controls : List ℕ) (target : ℕ) : Option Gate :=
  (Gate.x target).controlled controls

/-- `Gate::cx` (src/core/mod.rs:97-99). -/
def Gate.cx (control target : ℕ) : Option Gate :=
  Gate.cnx [control] target

/-- The small-index accumulation loop of `Gate::turn_big`
(src/core/mod.rs:144-151): for each list position `i`, if bit
`targets[i]` of `x` is set, or `1 << i` into the accumulator. -/
def smallIdxGo (x : ℕ) : List ℕ → ℕ → ℕ → ℕ
  | [], _, acc => acc
  | t :: rest, i, acc =>
      smallIdxGo x rest (i + 1) (if (x >>> t) &&& 1 = 1 then acc ||| (1 <<< i) else acc)

/-- The small row/column index of `Gate::turn_big`. -/
def smallIdx (targets : List ℕ) (x : ℕ) : ℕ := smallIdxGo x targets 0 0

/-- The non-target-bits agreement loop of `Gate::turn_big`
(src/core/mod.rs:127-137). -/
def matchB (targets : List ℕ) (n row col : ℕ) : Bool :=
  (List.range n).all fun bit_pos =>
    targets.contains bit_pos || ((row >>> bit_pos) &&& 1 == (col >>> bit_pos) &&& 1)

/-- `Gate::turn_big` (src/core/mod.rs:120-157): start from
`Mat::zeros(2^n, 2^n)`; an entry is written iff the non-target bits of
row and column agree, in which case it is the small-operator entry at the
gathered small indices. -/
def Gate.turn_big (g : Gate) (n : ℕ) : RMat :=
  ⟨2 ^ n, 2 ^ n, fun row col =>
    if matchB g.targets n row col
    then g.mat.entry (smallIdx g.targets row) (smallIdx g.targets col)
    else 0⟩

/-- `pub struct Circuit { qubits: usize, gates: Vec<Gate> }` -/
structure Circuit where
  qubits : ℕ
  gates : List Gate

/-- `Circuit::new` (src/core/mod.rs:161-166). -/
def Circuit.new (qubits : ℕ) : Circuit := ⟨qubits, []⟩

/-- `Circuit::get_vec` (src/core/mod.rs:168-176): basis column vector of
dimension `2^qubits`, `None` when the index is out of range.  Vectors are
modelled as total functions `ℕ → C`; entries at or beyond the dimension
are never read. -/
def Circuit.get_vec (c : Circuit) (i : ℕ) : Option (ℕ → C) :=
  if i ≥ 2 ^ c.qubits then none
  else some (fun j => if j = i then 1 else 0)

/-- `Circuit::h` (src/core/mod.rs:178-185), returning (result, post-state). -/
def Circuit.h (c : Circuit) (target : ℕ) : Except Unit Unit × Circuit :=
  if target ≥ c.qubits then (.error (), c)
  else (.ok (), { c with gates := c.gates ++ [Gate.h target] })

/-- `Circuit::x` (src/core/mod.rs:187-194). -/
def Circuit.x (c : Circuit) (target : ℕ) : Except Unit Unit × Circuit :=
  if target ≥ c.qubits then (.error (), c)
  else (.ok (), { c with gates := c.gates ++ [Gate.x target] })

/-- `Circuit::cx` (src/core/mod.rs:196-204). -/
def Circuit.cx (c : Circuit) (control target : ℕ) : Except Unit Unit × Circuit :=
  if target ≥ c.qubits ∨ control ≥ c.qubits then (.error (), c)
  else
    match Gate.cx control target with
    | none => (.error (), c)
    | some g => (.ok (), { c with gates := c.gates ++ [g] })

/-- `Circuit::cnx` (src/core/mod.rs:206-214). -/
def Circuit.cnx (c : Circuit) (controls : List ℕ) (target : ℕ) :
    Except Unit Unit × Circuit :=
  if target ≥ c.qubits ∨ controls.any fun control => control ≥ c.qubits then (.error (), c)
  else
    match Gate.cnx controls target with
    | none => (.error (), c)
    | some g => (.ok (), { c with gates := c.gates ++ [g] })

/-- `Circuit::add_gate` (src/core/mod.rs:216-223). -/
def Circuit.add_gate (c : Circuit) (g : Gate) : Except Unit Unit × Circuit :=
  if g.targets.any fun x => x ≥ c.qubits then (.error (), c)
  else (.ok (), { c with gates := c.gates ++ [g] })

/-- Matrix-vector product `g * current` of `Circuit::run`. -/
def RMat.mulVec (m : RMat) (v : ℕ → C) : ℕ → C :=
  fun i => ∑ k in Finset.range m.ncols, m.entry i k * v k

/-- Rust's `format!("{:0width$b}", i)`: the binary digits of `i` (most
significant first, at least one digit), left-padded with zeros to
`width`. -/
def toBinString (width i : ℕ) : String :=
  String.mk
    (((List.range (max width (if i = 0 then 1 else Nat.log2 i + 1))).map
      (fun p => if Nat.testBit i p then '1' else '0')).reverse)

/-- `Circuit::run` (src/core/mod.rs:225-238).  The `HashMap<String, C>`
result is modelled as the association list of (label, amplitude) pairs in
index order; all labels are distinct. -/
def Circuit.run (c : Circuit) : Option (List (String × C)) :=
  match c.get_vec 0 with
  | none => none
  | some v0 =>
      let final := c.gates.foldl (fun cur gate => (gate.turn_big c.qubits).mulVec cur) v0
      some ((List.range (2 ^ c.qubits)).map fun i => (toBinString c.qubits i, final i))

/-- Proposition form of the non-target-bits agreement condition of
`turn_big`. -/
def matchP (targets : List ℕ) (n row col : ℕ) : Prop :=
  ∀ p, p < n → p ∉ targets → row.testBit p = col.testBit p

/-- Builds the natural number whose bit `p` is `f p` for `p < n`. -/
def ofBits (f : ℕ → Bool) : ℕ → ℕ
  | 0 => 0
  | m + 1 => ofBits f m + (if f m then 2 ^ m else 0)

/-- Inverse of `smallIdx` on the block of indices whose non-target bits
agree with `r`: the `n`-bit number whose target bits are scattered from
the small index `s` and whose other bits are read from `r`. -/
def recon (targets : List ℕ) (n r s : ℕ) : ℕ :=
  ofBits (fun p => if p ∈ targets then s.testBit (targets.indexOf p) else r.testBit p) n

/-- The gate's operator is exactly unitary: `mat * adjoint(mat)` is the
exact identity (not merely within tolerance). -/
def exactUnitary (g : Gate) : Prop :=
  ∀ i j, i < 2 ^ g.targets.length → j < 2 ^ g.targets.length →
    (g.mat.mul g.mat.adjoint).entry i j = if i = j then 1 else 0

/-- The gate's matrix has the dimensions enforced by `Gate::new`. -/
def gateDims (g : Gate) : Prop :=
  g.mat.nrows = 2 ^ g.targets.length ∧ g.mat.ncols = 2 ^ g.targets.length

/-- All target indices lie below `n`. -/
def targetsOk (n : ℕ) (g : Gate) : Prop := ∀ t ∈ g.targets, t < n

/-- The gate passes the `Gate::new` construction contract (as every Rust
`Gate` value does, the fields being private). -/
def constructed (g : Gate) : Prop := Gate.new g.mat g.targets = some g

/-- Sum of squared amplitude magnitudes of a run result. -/
def resSum (res : List (String × C)) : ℝ := (res.map fun p => norm p.2 ^ 2).sum

/-- Sum of squared magnitudes of the first `m` entries of a state vector. -/
def vsum (m : ℕ) (v : ℕ → C) : ℝ := ∑ i in Finset.range m, norm (v i) ^ 2

/-- A scalar slightly inside the unitarity tolerance: `0.999998`. -/
def cSlack : ℝ := 499999 / 500000

/-- `cSlack • I₂`: passes `Gate::new`'s tolerance checks without being
exactly unitary. -/
def slackMat : RMat := mat2 (Complex.ofReal cSlack) 0 0 (Complex.ofReal cSlack)

/-- A nearly-unitary but not exactly unitary gate on qubit 0. -/
def gSlack : Gate := ⟨slackMat, [0]⟩

/-- A 1-qubit circuit holding fifty copies of `gSlack`. -/
def cSlackCircuit : Circuit := ⟨1, List.replicate 50 gSlack⟩

/-- The controlled-X gate value produced by `Gate::cx(0, 1)`. -/
def cxGate : Gate := ⟨ctrlMat Xmat 2, [1, 0]⟩

/-- First step of the Bell scenario: `Circuit::new(2)` then `h(0)`. -/
def bellStep1 : Except Unit Unit × Circuit := (Circuit.new 2).h 0

/-- Second step of the Bell scenario: `cx(0, 1)` on the circuit after
`h(0)`. -/
def bellStep2 : Except Unit Unit × Circuit := bellStep1.2.cx 0 1

/-- The Bell circuit: 2 qubits, `h(0)` then `cx(0, 1)`. -/
def bellCircuit : Circuit := bellStep2.2

/-- The circuit invariant: every held gate's targets lie in `[0, qubits)`. -/
def gatesOk (c : Circuit) : Prop := ∀ g ∈ c.gates, targetsOk c.qubits g

/-- A mutation step appended exactly one gate that references only
in-range qubits and passed the construction contract, leaving the qubit
count unchanged. -/
def appendsValidated (c post : Circuit) : Prop :=
  ∃ g', post = ⟨c.qubits, c.gates ++ [g']⟩ ∧ targetsOk c.qubits g' ∧ constructed g'

end

/-! ### Bit-manipulation toolbox -/

theorem testBit_high {x n p : ℕ} (hx : x < 2 ^ n) (hp : n ≤ p) : x.testBit p = false :=
  Nat.testBit_eq_false_of_lt (lt_of_lt_of_le hx (Nat.pow_le_pow_right (by norm_num) hp))

theorem eq_of_testBit_lt {n a b : ℕ} (ha : a < 2 ^ n) (hb : b < 2 ^ n)
    (h : ∀ p, p < n → a.testBit p = b.testBit p) : a = b := by
  apply Nat.eq_of_testBit_eq
  intro p
  by_cases hp : p < n
  · exact h p hp
  · rw [testBit_high ha (le_of_not_lt hp), testBit_high hb (le_of_not_lt hp)]

theorem testBit_add_two_pow {x m : ℕ} (hx : x < 2 ^ m) (p : ℕ) :
    (x + 2 ^ m).testBit p = (x.testBit p || decide (p = m)) := by
  rcases lt_trichotomy p m with hpm | rfl | hpm
  · have hne : ¬ (p = m) := by omega
    rw [Nat.testBit_to_div_mod, Nat.testBit_to_div_mod]
    have hsplit : 2 ^ m = 2 ^ (m - p - 1) * 2 * 2 ^ p := by
      rw [mul_assoc, mul_comm 2 (2 ^ p), ← pow_succ, ← pow_add]
      congr 1
      omega
    have hdiv : (x + 2 ^ m) / 2 ^ p = x / 2 ^ p + 2 ^ (m - p - 1) * 2 := by
      rw [hsplit, Nat.add_mul_div_right _ _ (Nat.pos_pow_of_pos p (by norm_num))]
    rw [hdiv, Nat.add_mul_mod_self_right]
    simp [hne]
  · have h1 : (x + 2 ^ p) / 2 ^ p = 1 := by
      rw [Nat.add_div_right _ (Nat.pos_pow_of_pos p (by norm_num)), Nat.div_eq_of_lt hx]
    rw [Nat.testBit_to_div_mod, h1, testBit_high hx le_rfl]
    simp
  · have hlt : x + 2 ^ m < 2 ^ p := by
      have : 2 ^ (m + 1) ≤ 2 ^ p := Nat.pow_le_pow_right (by norm_num) (by omega)
      have := Nat.pow_succ 2 m
      omega
    rw [Nat.testBit_eq_false_of_lt hlt, testBit_high hx (by omega)]
    simp
    omega

theorem or_one_shift {acc i : ℕ} (h : acc < 2 ^ i) : acc ||| (1 <<< i) = acc + 2 ^ i := by
  rw [Nat.shiftLeft_eq, one_mul]
  apply Nat.eq_of_testBit_eq
  intro p
  rw [Nat.testBit_or, testBit_add_two_pow h p]
  congr 1
  by_cases hpi : p = i
  · subst hpi
    simp [Nat.testBit_two_pow_self]
  · rw [Nat.testBit_two_pow_of_ne (Ne.symm hpi)]
    simp [hpi]

theorem shift_and_one (x t : ℕ) : (x >>> t) &&& 1 = if x.testBit t then 1 else 0 := by
  rw [Nat.and_one_is_mod, Nat.shiftRight_eq_div_pow, Nat.testBit_to_div_mod]
  by_cases h : x / 2 ^ t % 2 = 1
  · simp [h]
  · simp only [h, decide_False, Bool.false_eq_true, if_false]
    omega

theorem shift_and_one_eq {r c p : ℕ} :
    (r >>> p) &&& 1 = (c >>> p) &&& 1 ↔ r.testBit p = c.testBit p := by
  rw [shift_and_one, shift_and_one]
  cases hr : r.testBit p <;> cases hc : c.testBit p <;> simp

theorem ofBits_lt (f : ℕ → Bool) : ∀ n, ofBits f n < 2 ^ n := by
  intro n
  induction n with
  | zero => simp [ofBits]
  | succ m ih =>
      have h2 : (2 : ℕ) ^ (m + 1) = 2 ^ m + 2 ^ m := by rw [pow_succ]; omega
      unfold ofBits
      by_cases h : f m <;> simp [h] <;> omega

theorem testBit_ofBits (f : ℕ → Bool) : ∀ n p, (ofBits f n).testBit p = if p < n then f p else false := by
  intro n
  induction n with
  | zero => intro p; simp [ofBits]
  | succ m ih =>
      intro p
      unfold ofBits
      by_cases h : f m
      · rw [if_pos h, testBit_add_two_pow (ofBits_lt f m) p, ih p]
        rcases lt_trichotomy p m with hpm | rfl | hpm
        · simp [hpm, (show p ≠ m by omega), (show p < m + 1 by omega)]
        · simp [h]
        · simp [(show ¬ p < m by omega), (show p ≠ m by omega), (show ¬ p < m + 1 by omega)]
      · rw [if_neg h, add_zero, ih p]
        rcases lt_trichotomy p m with hpm | rfl | hpm
        · simp [hpm, (show p < m + 1 by omega)]
        · simp [h]
        · simp [(show ¬ p < m by omega), (show ¬ p < m + 1 by omega)]

/-! ### Characterisation of the small-index gather loop of `turn_big` -/

theorem smallIdxGo_lt (x : ℕ) :
    ∀ (ts : List ℕ) (i acc : ℕ), acc < 2 ^ i → smallIdxGo x ts i acc < 2 ^ (i + ts.length) := by
  intro ts
  induction ts with
  | nil => intro i acc h; simpa [smallIdxGo] using h
  | cons t rest ih =>
      intro i acc h
      have hacc : (if (x >>> t) &&& 1 = 1 then acc ||| (1 <<< i) else acc) < 2 ^ (i + 1) := by
        have hp : (2 : ℕ) ^ (i + 1) = 2 ^ i + 2 ^ i := by rw [pow_succ]; omega
        by_cases hb : (x >>> t) &&& 1 = 1
        · rw [if_pos hb, or_one_shift h]; omega
        · rw [if_neg hb]; omega
      have := ih (i + 1) _ hacc
      simpa [smallIdxGo, (show i + 1 + rest.length = i + (rest.length + 1) by omega)] using this

theorem smallIdx_lt (ts : List ℕ) (x : ℕ) : smallIdx ts x < 2 ^ ts.length := by
  simpa [smallIdx] using smallIdxGo_lt x ts 0 0 (by norm_num)

theorem testBit_smallIdxGo (x : ℕ) :
    ∀ (ts : List ℕ) (i acc : ℕ), acc < 2 ^ i → ∀ p,
      (smallIdxGo x ts i acc).testBit p =
        if p < i then acc.testBit p
        else if p - i < ts.length then x.testBit (ts.getD (p - i) 0) else false := by
  intro ts
  induction ts with
  | nil =>
      intro i acc h p
      by_cases hp : p < i
      · simp [smallIdxGo, hp]
      · simp [smallIdxGo, hp, testBit_high h (le_of_not_lt hp)]
  | cons t rest ih =>
      intro i acc h p
      have hacc : (if (x >>> t) &&& 1 = 1 then acc ||| (1 <<< i) else acc) < 2 ^ (i + 1) := by
        have hp : (2 : ℕ) ^ (i + 1) = 2 ^ i + 2 ^ i := by rw [pow_succ]; omega
        by_cases hb : (x >>> t) &&& 1 = 1
        · rw [if_pos hb, or_one_shift h]; omega
        · rw [if_neg hb]; omega
      rw [smallIdxGo, ih (i + 1) _ hacc p]
      simp only [List.length_cons]
      rcases lt_trichotomy p i with hpi | heq | hpi
      · rw [if_pos (by omega : p < i + 1), if_pos hpi]
        by_cases hb : (x >>> t) &&& 1 = 1
        · rw [if_pos hb, or_one_shift h, testBit_add_two_pow h p]
          simp [(show p ≠ i by omega)]
        · rw [if_neg hb]
      · subst heq
        rw [if_pos (by omega : p < p + 1), if_neg (lt_irrefl p)]
        rw [if_pos (by omega : p - p < rest.length + 1)]
        have hget : (t :: rest).getD (p - p) 0 = t := by simp
        rw [hget, shift_and_one]
        by_cases hb : x.testBit t
        · rw [if_pos (by simp [hb] : (if x.testBit t then 1 else 0) = 1), or_one_shift h,
            testBit_add_two_pow h p]
          simp [hb]
        · rw [if_neg (by simp [hb]), testBit_high h le_rfl,
            (Bool.not_eq_true _).mp hb]
      · rw [if_neg (by omega : ¬ p < i + 1), if_neg (by omega : ¬ p < i)]
        by_cases hrest : p - (i + 1) < rest.length
        · rw [if_pos hrest, if_pos (by omega : p - i < rest.length + 1)]
          have : (t :: rest).getD (p - i) 0 = rest.getD (p - (i + 1)) 0 := by
            have hpi2 : p - i = (p - (i + 1)) + 1 := by omega
            rw [hpi2]
            simp
          rw [this]
        · rw [if_neg hrest, if_neg (by omega : ¬ p - i < rest.length + 1)]

theorem testBit_smallIdx (ts : List ℕ) (x p : ℕ) :
    (smallIdx ts x).testBit p =
      if p < ts.length then x.testBit (ts.getD p 0) else false := by
  have := testBit_smallIdxGo x ts 0 0 (by norm_num) p
  simpa [smallIdx] using this

theorem smallIdxGo_eq_sum (x : ℕ) :
    ∀ (ts : List ℕ) (i acc : ℕ), acc < 2 ^ i →
      smallIdxGo x ts i acc =
        acc + ∑ j in Finset.range ts.length,
          (if x.testBit (ts.getD j 0) then 2 ^ (i + j) else 0) := by
  intro ts
  induction ts with
  | nil => intro i acc h; simp [smallIdxGo]
  | cons t rest ih =>
      intro i acc h
      have hacc : (if (x >>> t) &&& 1 = 1 then acc ||| (1 <<< i) else acc) < 2 ^ (i + 1) := by
        have hp : (2 : ℕ) ^ (i + 1) = 2 ^ i + 2 ^ i := by rw [pow_succ]; omega
        by_cases hb : (x >>> t) &&& 1 = 1
        · rw [if_pos hb, or_one_shift h]; omega
        · rw [if_neg hb]; omega
      rw [smallIdxGo, ih (i + 1) _ hacc]
      rw [List.length_cons, Finset.sum_range_succ']
      have hshift : ∀ j, (if x.testBit ((t :: rest).getD (j + 1) 0) then 2 ^ (i + (j + 1)) else 0)
          = (if x.testBit (rest.getD j 0) then 2 ^ (i + 1 + j) else 0) := by
        intro j
        have : i + (j + 1) = i + 1 + j := by omega
        simp [this]
      rw [Finset.sum_congr rfl fun j _ => hshift j]
      have hfirst : (if x.testBit ((t :: rest).getD 0 0) then 2 ^ (i + 0) else 0)
          = if x.testBit t then 2 ^ i else 0 := by simp
      rw [hfirst, shift_and_one]
      by_cases hb : x.testBit t
      · rw [if_pos (by simp [hb]), if_pos hb, or_one_shift h]
        omega
      · rw [if_neg (by simp [hb]), if_neg hb]
        omega

theorem smallIdx_eq_sum (ts : List ℕ) (x : ℕ) :
    smallIdx ts x =
      ∑ j in Finset.range ts.length, (if x.testBit (ts.getD j 0) then 2 ^ j else 0) := by
  have := smallIdxGo_eq_sum x ts 0 0 (by norm_num)
  simpa [smallIdx] using this

/-! ### Characterisation of the non-target-bits agreement loop -/

theorem matchB_iff (ts : List ℕ) (n r c : ℕ) :
    matchB ts n r c = true ↔ matchP ts n r c := by
  unfold matchB matchP
  rw [List.all_eq_true]
  constructor
  · intro h p hp hmem
    have := h p (List.mem_range.mpr hp)
    rw [Bool.or_eq_true] at this
    rcases this with hc | hbits
    · exact absurd (by simpa using hc) hmem
    · exact shift_and_one_eq.mp (by simpa using hbits)
  · intro h p hp
    rw [Bool.or_eq_true]
    by_cases hmem : p ∈ ts
    · left; simpa using hmem
    · right
      have := h p (List.mem_range.mp hp) hmem
      simpa using shift_and_one_eq.mpr this

theorem matchP_refl (ts : List ℕ) (n r : ℕ) : matchP ts n r r := fun _ _ _ => rfl

theorem matchP_symm {ts : List ℕ} {n r c : ℕ} (h : matchP ts n r c) : matchP ts n c r :=
  fun p hp hm => (h p hp hm).symm

theorem matchP_trans {ts : List ℕ} {n a b c : ℕ} (h1 : matchP ts n a b)
    (h2 : matchP ts n b c) : matchP ts n a c :=
  fun p hp hm => (h1 p hp hm).trans (h2 p hp hm)

/-! ### `recon`: the inverse of `smallIdx` on a fixed non-target block -/

theorem recon_lt (ts : List ℕ) (n r s : ℕ) : recon ts n r s < 2 ^ n := ofBits_lt _ n

theorem testBit_recon (ts : List ℕ) (n r s p : ℕ) (hp : p < n) :
    (recon ts n r s).testBit p =
      if p ∈ ts then s.testBit (ts.indexOf p) else r.testBit p := by
  rw [recon, testBit_ofBits, if_pos hp]

theorem recon_matchP (ts : List ℕ) (n r s : ℕ) : matchP ts n r (recon ts n r s) :=
  fun p hp hm => by rw [testBit_recon ts n r s p hp, if_neg hm]

theorem smallIdx_recon {ts : List ℕ} {n : ℕ} (hN : ts.Nodup) (hR : ∀ a ∈ ts, a < n)
    {s : ℕ} (hs : s < 2 ^ ts.length) (r : ℕ) :
    smallIdx ts (recon ts n r s) = s := by
  apply eq_of_testBit_lt (smallIdx_lt ts _) hs
  intro p hp
  rw [testBit_smallIdx, if_pos hp]
  have hgd : ts.getD p 0 = ts[p] := List.getD_eq_getElem ts 0 hp
  have hmem : ts.getD p 0 ∈ ts := by rw [hgd]; exact List.getElem_mem hp
  rw [testBit_recon _ _ _ _ _ (hR _ hmem), if_pos hmem, hgd,
    List.indexOf_getElem hN p hp]

theorem recon_smallIdx {ts : List ℕ} {n : ℕ} (_hN : ts.Nodup) {r j : ℕ}
    (hj : j < 2 ^ n) (hm : matchP ts n r j) :
    recon ts n r (smallIdx ts j) = j := by
  apply eq_of_testBit_lt (recon_lt ts n r _) hj
  intro p hp
  rw [testBit_recon _ _ _ _ p hp]
  by_cases hmem : p ∈ ts
  · have hidx : ts.indexOf p < ts.length := List.indexOf_lt_length.mpr hmem
    rw [if_pos hmem, testBit_smallIdx, if_pos hidx,
      List.getD_eq_getElem ts 0 hidx, List.getElem_indexOf hidx]
  · rw [if_neg hmem]
    exact hm p hp hmem

/-! ### The product of an embedded operator with its adjoint -/

theorem turn_big_entry_match {g : Gate} {n row col : ℕ} (h : matchP g.targets n row col) :
    (g.turn_big n).entry row col =
      g.mat.entry (smallIdx g.targets row) (smallIdx g.targets col) := by
  unfold Gate.turn_big
  simp only
  rw [if_pos ((matchB_iff _ _ _ _).mpr h)]

theorem turn_big_entry_nomatch {g : Gate} {n row col : ℕ} (h : ¬ matchP g.targets n row col) :
    (g.turn_big n).entry row col = 0 := by
  unfold Gate.turn_big
  simp only
  rw [if_neg (fun hb => h ((matchB_iff _ _ _ _).mp hb))]

open Classical in
theorem mul_adjoint_turn_big (g : Gate) (n : ℕ) (hN : g.targets.Nodup)
    (hR : targetsOk n g) (hcols : g.mat.ncols = 2 ^ g.targets.length)
    (r c : ℕ) :
    ((g.turn_big n).mul (g.turn_big n).adjoint).entry r c =
      if matchP g.targets n r c
      then (g.mat.mul g.mat.adjoint).entry (smallIdx g.targets r) (smallIdx g.targets c)
      else 0 := by
  have hTcol : (g.turn_big n).ncols = 2 ^ n := rfl
  show (∑ j in Finset.range (2 ^ n),
      (g.turn_big n).entry r j * star ((g.turn_big n).entry c j)) = _
  by_cases hm : matchP g.targets n r c
  · rw [if_pos hm]
    have hterm : ∀ j, (g.turn_big n).entry r j * star ((g.turn_big n).entry c j) =
        if matchB g.targets n r j = true
        then g.mat.entry (smallIdx g.targets r) (smallIdx g.targets j) *
          star (g.mat.entry (smallIdx g.targets c) (smallIdx g.targets j))
        else 0 := by
      intro j
      by_cases hrj : matchP g.targets n r j
      · rw [if_pos ((matchB_iff _ _ _ _).mpr hrj), turn_big_entry_match hrj,
          turn_big_entry_match (matchP_trans (matchP_symm hm) hrj)]
      · rw [if_neg (fun hb => hrj ((matchB_iff _ _ _ _).mp hb)),
          turn_big_entry_nomatch hrj, zero_mul]
    rw [Finset.sum_congr rfl fun j _ => hterm j, ← Finset.sum_filter]
    have hbij : ∑ j in (Finset.range (2 ^ n)).filter (fun j => matchB g.targets n r j = true),
        g.mat.entry (smallIdx g.targets r) (smallIdx g.targets j) *
          star (g.mat.entry (smallIdx g.targets c) (smallIdx g.targets j)) =
        ∑ s in Finset.range (2 ^ g.targets.length),
          g.mat.entry (smallIdx g.targets r) s * star (g.mat.entry (smallIdx g.targets c) s) := by
      apply Finset.sum_nbij' (fun j => smallIdx g.targets j) (fun s => recon g.targets n r s)
      · intro j _
        exact Finset.mem_range.mpr (smallIdx_lt _ _)
      · intro s hs
        rw [Finset.mem_filter]
        exact ⟨Finset.mem_range.mpr (recon_lt _ _ _ _),
          (matchB_iff _ _ _ _).mpr (recon_matchP _ _ _ _)⟩
      · intro j hjf
        rw [Finset.mem_filter] at hjf
        exact recon_smallIdx hN (Finset.mem_range.mp hjf.1) ((matchB_iff _ _ _ _).mp hjf.2)
      · intro s hs
        exact smallIdx_recon hN hR (Finset.mem_range.mp hs) r
      · intro j _
        rfl
    rw [hbij]
    show _ = ∑ k in Finset.range g.mat.ncols,
      g.mat.entry (smallIdx g.targets r) k * star (g.mat.entry (smallIdx g.targets c) k)
    rw [hcols]
  · rw [if_neg hm]
    apply Finset.sum_eq_zero
    intro j _
    by_cases hrj : matchP g.targets n r j
    · have hcj : ¬ matchP g.targets n c j := fun hcj =>
        hm (matchP_trans hrj (matchP_symm hcj))
      rw [turn_big_entry_nomatch hcj, star_zero, mul_zero]
    · rw [turn_big_entry_nomatch hrj, zero_mul]

/-! ### Norm helpers -/

theorem norm_def_abs (z : C) : norm z = Complex.abs z := by
  rw [norm, Complex.abs_apply, Complex.normSq_apply]

theorem norm_zero' : norm 0 = 0 := by rw [norm_def_abs]; simp

theorem norm_ofReal (a : ℝ) : norm (Complex.ofReal a) = |a| := by
  rw [norm_def_abs, Complex.abs_ofReal]

theorem norm_nonneg' (z : C) : 0 ≤ norm z := Real.sqrt_nonneg _

theorem norm_sq_eq (z : C) : norm z ^ 2 = (star z * z).re := by
  have h0 : (0 : ℝ) ≤ z.re * z.re + z.im * z.im := by nlinarith [sq_nonneg z.re, sq_nonneg z.im]
  rw [norm, sq, Real.mul_self_sqrt h0, Complex.mul_re, Complex.star_def,
    Complex.conj_re, Complex.conj_im]
  ring

/-! ### Injectivity of (non-target block, small index) -/

theorem match_smallIdx_inj {ts : List ℕ} {n : ℕ} (_hR : ∀ a ∈ ts, a < n)
    {r c : ℕ} (hr : r < 2 ^ n) (hc : c < 2 ^ n) (hm : matchP ts n r c)
    (hs : smallIdx ts r = smallIdx ts c) : r = c := by
  apply eq_of_testBit_lt hr hc
  intro p hp
  by_cases hmem : p ∈ ts
  · obtain ⟨i, hi, hget⟩ := List.getElem_of_mem hmem
    have := congrArg (fun x => x.testBit i) hs
    simp only at this
    rw [testBit_smallIdx, testBit_smallIdx, if_pos hi, if_pos hi,
      List.getD_eq_getElem ts 0 hi, hget] at this
    exact this
  · exact hm p hp hmem

/-- Under exact unitarity of the small operator, the embedded operator
times its adjoint is exactly the identity, entry by entry. -/
theorem turn_big_delta (g : Gate) (n : ℕ) (hN : g.targets.Nodup)
    (hR : targetsOk n g) (hcols : g.mat.ncols = 2 ^ g.targets.length)
    (hU : exactUnitary g) {r c : ℕ} (hr : r < 2 ^ n) (hc : c < 2 ^ n) :
    ((g.turn_big n).mul (g.turn_big n).adjoint).entry r c = if r = c then 1 else 0 := by
  rw [mul_adjoint_turn_big g n hN hR hcols r c]
  by_cases hrc : r = c
  · subst hrc
    rw [if_pos (matchP_refl _ _ _), if_pos rfl,
      hU _ _ (smallIdx_lt _ _) (smallIdx_lt _ _), if_pos rfl]
  · rw [if_neg hrc]
    by_cases hm : matchP g.targets n r c
    · rw [if_pos hm, hU _ _ (smallIdx_lt _ _) (smallIdx_lt _ _), if_neg]
      intro hs
      exact hrc (match_smallIdx_inj hR hr hc hm hs)
    · rw [if_neg hm]

/-! ### From `RMat` to Mathlib matrices -/

theorem toM_mul_adjoint (a : RMat) (m : ℕ) (ha : a.ncols = m) (i j : Fin m) :
    (toM a m * (toM a m)ᴴ) i j = (a.mul a.adjoint).entry i.val j.val := by
  rw [Matrix.mul_apply]
  show (∑ k : Fin m, toM a m i k * star (toM a m j k)) = _
  show _ = ∑ k in Finset.range a.ncols, a.entry i.val k * star (a.entry j.val k)
  rw [ha, ← Fin.sum_univ_eq_sum_range (fun k => a.entry i.val k * star (a.entry j.val k)) m]
  rfl

theorem toM_turn_big_unitary (g : Gate) (n : ℕ) (hN : g.targets.Nodup)
    (hR : targetsOk n g) (hcols : g.mat.ncols = 2 ^ g.targets.length)
    (hU : exactUnitary g) :
    toM (g.turn_big n) (2 ^ n) * (toM (g.turn_big n) (2 ^ n))ᴴ = 1 := by
  ext i j
  rw [toM_mul_adjoint (g.turn_big n) (2 ^ n) rfl i j,
    turn_big_delta g n hN hR hcols hU i.isLt j.isLt, Matrix.one_apply]
  by_cases hij : i = j
  · rw [if_pos hij, if_pos (congrArg Fin.val hij)]
  · rw [if_neg hij, if_neg (fun hv => hij (Fin.ext hv))]

/-- Main positive embedding result: for an exactly unitary, well-formed
gate whose targets are distinct and lie in `[0, n)`, the embedded
operator passes `is_unit`. -/
theorem is_unit_turn_big (g : Gate) (n : ℕ) (hN : g.targets.Nodup)
    (hR : targetsOk n g) (hcols : g.mat.ncols = 2 ^ g.targets.length)
    (hU : exactUnitary g) : is_unit (g.turn_big n) := by
  have hunit := toM_turn_big_unitary g n hN hR hcols hU
  constructor
  · -- determinant-magnitude stage
    have hdet : (toM (g.turn_big n) (2 ^ n)).det *
        star ((toM (g.turn_big n) (2 ^ n)).det) = 1 := by
      have := congrArg Matrix.det hunit
      rwa [Matrix.det_mul, Matrix.det_conjTranspose, Matrix.det_one] at this
    rw [Complex.star_def, Complex.mul_conj] at hdet
    have hsq' : Complex.normSq ((toM (g.turn_big n) (2 ^ n)).det) = 1 := by
      exact_mod_cast hdet
    have hnorm : norm ((g.turn_big n).det) = 1 := by
      show norm ((toM (g.turn_big n) (g.turn_big n).nrows).det) = 1
      rw [norm_def_abs, Complex.abs_apply]
      show Real.sqrt (Complex.normSq ((toM (g.turn_big n) (2 ^ n)).det)) = 1
      rw [hsq', Real.sqrt_one]
    rw [hnorm]
    norm_num [detTol]
  · constructor
    · rfl
    · intro i j hi hj
      have hij := turn_big_delta g n hN hR hcols hU (r := i) (c := j) hi hj
      by_cases h : i = j
      · rw [if_pos h, hij, if_pos h, sub_self, norm_zero']
        norm_num [idTol]
      · rw [if_neg h, hij, if_neg h, norm_zero']
        norm_num [idTol]

/-! ### Characterisation of `Gate::new` -/

theorem findDup_aux : ∀ (l : List ℕ) (seen : Finset ℕ),
    findDup l seen = false ↔ l.Nodup ∧ ∀ a ∈ l, a ∉ seen := by
  intro l
  induction l with
  | nil => intro seen; simp [findDup]
  | cons t rest ih =>
      intro seen
      unfold findDup
      by_cases hts : t ∈ seen
      · simp only [if_pos hts]
        constructor
        · intro h; exact absurd h (by simp)
        · rintro ⟨-, hall⟩
          exact absurd hts (hall t (by simp))
      · rw [if_neg hts, ih (insert t seen)]
        constructor
        · rintro ⟨hnd, hall⟩
          have htr : t ∉ rest := fun htr =>
            (Finset.mem_insert_self t seen) |> fun hmem => (hall t htr) hmem
          refine ⟨List.nodup_cons.mpr ⟨htr, hnd⟩, ?_⟩
          intro a ha
          rcases List.mem_cons.mp ha with rfl | ha'
          · exact hts
          · exact fun hmem => (hall a ha') (Finset.mem_insert_of_mem hmem)
        · rintro ⟨hnd, hall⟩
          obtain ⟨htr, hnd'⟩ := List.nodup_cons.mp hnd
          refine ⟨hnd', ?_⟩
          intro a ha hmem
          rcases Finset.mem_insert.mp hmem with rfl | hmem'
          · exact htr ha
          · exact hall a (List.mem_cons_of_mem _ ha) hmem'

theorem findDup_iff_nodup (l : List ℕ) : findDup l ∅ = false ↔ l.Nodup := by
  rw [findDup_aux]
  simp

theorem findDup_iff_not_nodup (l : List ℕ) : findDup l ∅ = true ↔ ¬ l.Nodup := by
  rw [← findDup_iff_nodup l]
  cases findDup l ∅ <;> simp

theorem gate_new_eq_some_iff (mat : RMat) (ts : List ℕ) (g : Gate) :
    Gate.new mat ts = some g ↔
      (mat.ncols = mat.nrows ∧ mat.ncols = 2 ^ ts.length ∧ is_unit mat ∧ ts.Nodup ∧
        g = ⟨mat, ts⟩) := by
  unfold Gate.new
  split_ifs with h1 h2 h3 h4
  · constructor
    · intro h; cases h
    · rintro ⟨hc, -⟩; exact absurd hc h1
  · constructor
    · intro h; cases h
    · rintro ⟨-, hc, -⟩; exact absurd hc h2
  · constructor
    · intro h; cases h
    · rintro ⟨-, -, -, hc, -⟩; exact absurd hc ((findDup_iff_not_nodup ts).mp h4)
  · rw [not_ne_iff] at h1 h2
    rw [Bool.not_eq_true, findDup_iff_nodup] at h4
    constructor
    · intro h
      exact ⟨h1, h2, h3, h4, (Option.some.inj h).symm⟩
    · rintro ⟨-, -, -, -, rfl⟩
      rfl
  · constructor
    · intro h; cases h
    · rintro ⟨-, -, hc, -⟩; exact absurd hc h3

theorem gate_new_eq_none_iff (mat : RMat) (ts : List ℕ) :
    Gate.new mat ts = none ↔
      (mat.ncols ≠ mat.nrows ∨ mat.ncols ≠ 2 ^ ts.length ∨ ¬ is_unit mat ∨ ¬ ts.Nodup) := by
  unfold Gate.new
  split_ifs with h1 h2 h3 h4
  · exact iff_of_true (by trivial) (Or.inl h1)
  · exact iff_of_true (by trivial) (Or.inr (Or.inl h2))
  · exact iff_of_true (by trivial)
      (Or.inr (Or.inr (Or.inr ((findDup_iff_not_nodup ts).mp h4))))
  · rw [not_ne_iff] at h1 h2
    rw [Bool.not_eq_true, findDup_iff_nodup] at h4
    constructor
    · intro h; cases h
    · rintro (hc | hc | hc | hc)
      · exact absurd h1 hc
      · exact absurd h2 hc
      · exact absurd h3 hc
      · exact absurd h4 hc
  · exact iff_of_true (by trivial) (Or.inr (Or.inr (Or.inl h3)))

theorem gate_new_constructed {mat : RMat} {ts : List ℕ} {g : Gate}
    (h : Gate.new mat ts = some g) : constructed g := by
  obtain ⟨h1, h2, h3, h4, rfl⟩ := (gate_new_eq_some_iff mat ts g).mp h
  exact (gate_new_eq_some_iff mat ts _).mpr ⟨h1, h2, h3, h4, rfl⟩

/-! ### The standard 2×2 gates -/

theorem hVal_mul_self : hVal * hVal = (1 / 2 : C) := by
  rw [hVal, ← Complex.ofReal_mul]
  have h : (1 / Real.sqrt 2) * (1 / Real.sqrt 2) = 1 / 2 := by
    rw [div_mul_div_comm, one_mul, Real.mul_self_sqrt (by norm_num)]
  rw [h]
  norm_num

theorem star_hVal : (starRingEnd C) hVal = hVal := Complex.conj_ofReal _

theorem Xmat_mul_adjoint (i j : ℕ) (hi : i < 2) (hj : j < 2) :
    (Xmat.mul Xmat.adjoint).entry i j = if i = j then 1 else 0 := by
  show (∑ k in Finset.range 2, Xmat.entry i k * star (Xmat.entry j k)) = _
  interval_cases i <;> interval_cases j <;>
    simp [Xmat, mat2, Finset.sum_range_succ]

theorem Hmat_mul_adjoint (i j : ℕ) (hi : i < 2) (hj : j < 2) :
    (Hmat.mul Hmat.adjoint).entry i j = if i = j then 1 else 0 := by
  show (∑ k in Finset.range 2, Hmat.entry i k * star (Hmat.entry j k)) = _
  interval_cases i <;> interval_cases j <;>
    norm_num [Hmat, mat2, Finset.sum_range_succ, star_hVal, hVal_mul_self]

theorem Xmat_det : Xmat.det = -1 := by
  show (toM Xmat 2).det = -1
  rw [Matrix.det_fin_two]
  simp [toM, Xmat, mat2]

theorem Hmat_det : Hmat.det = -1 := by
  show (toM Hmat 2).det = -1
  rw [Matrix.det_fin_two]
  simp [toM, Hmat, mat2, hVal_mul_self]
  norm_num

theorem norm_neg_one : norm (-1 : C) = 1 := by
  rw [show (-1 : C) = Complex.ofReal (-1) by norm_num, norm_ofReal]
  norm_num

theorem is_unit_Xmat : is_unit Xmat := by
  refine ⟨?_, rfl, ?_⟩
  · rw [Xmat_det, norm_neg_one]
    norm_num [detTol]
  · intro i j hi hj
    have hi2 : i < 2 := hi
    have hj2 : j < 2 := hj
    rw [Xmat_mul_adjoint i j hi2 hj2]
    by_cases h : i = j
    · rw [if_pos h, if_pos h, sub_self, norm_zero']
      norm_num [idTol]
    · rw [if_neg h, if_neg h, norm_zero']
      norm_num [idTol]

theorem is_unit_Hmat : is_unit Hmat := by
  refine ⟨?_, rfl, ?_⟩
  · rw [Hmat_det, norm_neg_one]
    norm_num [detTol]
  · intro i j hi hj
    have hi2 : i < 2 := hi
    have hj2 : j < 2 := hj
    rw [Hmat_mul_adjoint i j hi2 hj2]
    by_cases h : i = j
    · rw [if_pos h, if_pos h, sub_self, norm_zero']
      norm_num [idTol]
    · rw [if_neg h, if_neg h, norm_zero']
      norm_num [idTol]

theorem gate_new_Hmat (t : ℕ) : Gate.new Hmat [t] = some (Gate.h t) :=
  (gate_new_eq_some_iff _ _ _).mpr ⟨rfl, rfl, is_unit_Hmat, by simp, rfl⟩

theorem gate_new_Xmat (t : ℕ) : Gate.new Xmat [t] = some (Gate.x t) :=
  (gate_new_eq_some_iff _ _ _).mpr ⟨rfl, rfl, is_unit_Xmat, by simp, rfl⟩

theorem exactUnitary_gate_x (t : ℕ) : exactUnitary (Gate.x t) := by
  intro i j hi hj
  exact Xmat_mul_adjoint i j (by simpa using hi) (by simpa using hj)

theorem exactUnitary_gate_h (t : ℕ) : exactUnitary (Gate.h t) := by
  intro i j hi hj
  exact Hmat_mul_adjoint i j (by simpa using hi) (by simpa using hj)

/-! ### The controlled-extension matrix -/

theorem ctrlMat_entry_high {m : RMat} {total i j : ℕ}
    (hi1 : 2 ^ total - m.ncols ≤ i) (hi2 : i < 2 ^ total)
    (hj1 : 2 ^ total - m.ncols ≤ j) (hj2 : j < 2 ^ total) :
    (ctrlMat m total).entry i j =
      m.entry (i - (2 ^ total - m.ncols)) (j - (2 ^ total - m.ncols)) := by
  unfold ctrlMat
  simp only
  rw [if_pos ⟨hi1, hi2, hj1, hj2⟩]

theorem ctrlMat_entry_other {m : RMat} {total i j : ℕ}
    (h : ¬ (2 ^ total - m.ncols ≤ i ∧ i < 2 ^ total ∧
        2 ^ total - m.ncols ≤ j ∧ j < 2 ^ total)) :
    (ctrlMat m total).entry i j = if i = j then 1 else 0 := by
  unfold ctrlMat
  simp only
  rw [if_neg h]

theorem ctrlMat_mul_adjoint (m : RMat) (total : ℕ) (hc : m.ncols ≤ 2 ^ total)
    {i j : ℕ} (hi : i < 2 ^ total) (hj : j < 2 ^ total) :
    ((ctrlMat m total).mul (ctrlMat m total).adjoint).entry i j =
      if 2 ^ total - m.ncols ≤ i ∧ 2 ^ total - m.ncols ≤ j
      then (m.mul m.adjoint).entry (i - (2 ^ total - m.ncols)) (j - (2 ^ total - m.ncols))
      else if i = j then 1 else 0 := by
  have hgap : 2 ^ total - m.ncols + m.ncols = 2 ^ total := Nat.sub_add_cancel hc
  show (∑ t in Finset.range (2 ^ total),
      (ctrlMat m total).entry i t * star ((ctrlMat m total).entry j t)) = _
  by_cases hil : 2 ^ total - m.ncols ≤ i
  · by_cases hjl : 2 ^ total - m.ncols ≤ j
    · rw [if_pos ⟨hil, hjl⟩]
      have hzero : ∀ t ∈ Finset.range (2 ^ total - m.ncols),
          (ctrlMat m total).entry i t * star ((ctrlMat m total).entry j t) = 0 := by
        intro t ht
        rw [Finset.mem_range] at ht
        rw [ctrlMat_entry_other (by omega), if_neg (by omega), zero_mul]
      rw [Finset.range_eq_Ico,
        ← Finset.sum_Ico_consecutive _ (Nat.zero_le (2 ^ total - m.ncols)) (by omega),
        ← Finset.range_eq_Ico, Finset.sum_eq_zero hzero, zero_add,
        Finset.sum_Ico_eq_sum_range]
      have hlen : 2 ^ total - (2 ^ total - m.ncols) = m.ncols := by omega
      rw [hlen]
      show _ = ∑ k in Finset.range m.ncols,
        m.entry (i - (2 ^ total - m.ncols)) k * star (m.entry (j - (2 ^ total - m.ncols)) k)
      apply Finset.sum_congr rfl
      intro s hs
      rw [Finset.mem_range] at hs
      have harg : 2 ^ total - m.ncols + s - (2 ^ total - m.ncols) = s := by omega
      rw [ctrlMat_entry_high (by omega) (by omega) (by omega) (by omega),
        ctrlMat_entry_high (by omega) (by omega) (by omega) (by omega), harg]
    · rw [if_neg (by tauto), if_neg (by omega)]
      apply Finset.sum_eq_zero
      intro t ht
      rw [Finset.mem_range] at ht
      by_cases htl : 2 ^ total - m.ncols ≤ t
      · rw [ctrlMat_entry_other (show ¬ (2 ^ total - m.ncols ≤ j ∧ j < 2 ^ total ∧
            2 ^ total - m.ncols ≤ t ∧ t < 2 ^ total) by omega),
          if_neg (by omega : ¬ j = t), star_zero, mul_zero]
      · rw [ctrlMat_entry_other (by omega), if_neg (by omega), zero_mul]
  · have hsingle : ∀ t ∈ Finset.range (2 ^ total), t ≠ i →
        (ctrlMat m total).entry i t * star ((ctrlMat m total).entry j t) = 0 := by
      intro t ht hti
      rw [Finset.mem_range] at ht
      by_cases htl : 2 ^ total - m.ncols ≤ t
      · rw [ctrlMat_entry_other (by omega), if_neg (by omega), zero_mul]
      · rw [ctrlMat_entry_other (by omega), if_neg (fun hh => hti hh.symm), zero_mul]
    rw [if_neg (by tauto), Finset.sum_eq_single_of_mem i (Finset.mem_range.mpr hi) hsingle,
      ctrlMat_entry_other (by omega), if_pos rfl, one_mul]
    by_cases hij : i = j
    · subst hij
      rw [ctrlMat_entry_other (by omega), if_pos rfl, star_one]
    · rw [ctrlMat_entry_other (by omega), if_neg (fun hh => hij hh.symm), star_zero,
        if_neg hij]

theorem ctrlMat_det (m : RMat) (total : ℕ) (hc : m.ncols ≤ 2 ^ total) :
    (ctrlMat m total).det = (toM m m.ncols).det := by
  have hgap : (2 ^ total - m.ncols) + m.ncols = 2 ^ total := Nat.sub_add_cancel hc
  show (toM (ctrlMat m total) (2 ^ total)).det = _
  rw [← Matrix.det_submatrix_equiv_self (finSumFinEquiv.trans (finCongr hgap))
    (toM (ctrlMat m total) (2 ^ total))]
  have hblocks : (toM (ctrlMat m total) (2 ^ total)).submatrix
      (finSumFinEquiv.trans (finCongr hgap)) (finSumFinEquiv.trans (finCongr hgap)) =
      Matrix.fromBlocks 1 0 0 (toM m m.ncols) := by
    ext x y
    have hval : ∀ z : Fin (2 ^ total - m.ncols) ⊕ Fin m.ncols,
        (((finSumFinEquiv.trans (finCongr hgap))) z).val =
          Sum.elim (fun a : Fin (2 ^ total - m.ncols) => a.val)
            (fun b : Fin m.ncols => 2 ^ total - m.ncols + b.val) z := by
      intro z
      cases z with
      | inl a => simp
      | inr b => simp
    cases x with
    | inl a =>
        cases y with
        | inl b =>
            show (ctrlMat m total).entry _ _ = _
            rw [hval (Sum.inl a), hval (Sum.inl b)]
            simp only [Sum.elim_inl]
            rw [ctrlMat_entry_other (by have := a.isLt; omega)]
            rw [Matrix.fromBlocks_apply₁₁, Matrix.one_apply]
            by_cases hab : a = b
            · rw [if_pos (by rw [hab]), if_pos hab]
            · rw [if_neg (fun hv => hab (Fin.ext hv)), if_neg hab]
        | inr b =>
            show (ctrlMat m total).entry _ _ = _
            rw [hval (Sum.inl a), hval (Sum.inr b)]
            simp only [Sum.elim_inl, Sum.elim_inr]
            rw [ctrlMat_entry_other (by have := a.isLt; omega),
              if_neg (by have := a.isLt; omega)]
            rw [Matrix.fromBlocks_apply₁₂, Matrix.zero_apply]
    | inr a =>
        cases y with
        | inl b =>
            show (ctrlMat m total).entry _ _ = _
            rw [hval (Sum.inr a), hval (Sum.inl b)]
            simp only [Sum.elim_inl, Sum.elim_inr]
            rw [ctrlMat_entry_other (by have := b.isLt; omega),
              if_neg (by have := b.isLt; omega)]
            rw [Matrix.fromBlocks_apply₂₁, Matrix.zero_apply]
        | inr b =>
            show (ctrlMat m total).entry _ _ = _
            rw [hval (Sum.inr a), hval (Sum.inr b)]
            simp only [Sum.elim_inr]
            rw [ctrlMat_entry_high (by omega) (by have := a.isLt; omega) (by omega)
              (by have := b.isLt; omega)]
            rw [Matrix.fromBlocks_apply₂₂]
            show m.entry _ _ = m.entry a.val b.val
            congr 1 <;> omega
  rw [hblocks, Matrix.det_fromBlocks_zero₂₁, Matrix.det_one, one_mul]

theorem is_unit_ctrlMat (m : RMat) (total : ℕ) (hc : m.ncols ≤ 2 ^ total)
    (hrow : m.nrows = m.ncols) (hU : is_unit m) : is_unit (ctrlMat m total) := by
  have hgap : (2 ^ total - m.ncols) + m.ncols = 2 ^ total := Nat.sub_add_cancel hc
  constructor
  · have hd : (ctrlMat m total).det = m.det := by
      rw [ctrlMat_det m total hc]
      show _ = (toM m m.nrows).det
      rw [hrow]
    rw [hd]
    exact hU.1
  · refine ⟨rfl, ?_⟩
    intro i j hi hj
    have hi' : i < 2 ^ total := hi
    have hj' : j < 2 ^ total := hj
    rw [ctrlMat_mul_adjoint m total hc hi' hj']
    by_cases hb : 2 ^ total - m.ncols ≤ i ∧ 2 ^ total - m.ncols ≤ j
    · rw [if_pos hb]
      have hent := hU.2.2 (i - (2 ^ total - m.ncols)) (j - (2 ^ total - m.ncols))
        (show _ < (m.mul m.adjoint).ncols from show _ < m.nrows by omega)
        (show _ < (m.mul m.adjoint).ncols from show _ < m.nrows by omega)
      by_cases hij : i = j
      · rw [if_pos hij]
        rwa [if_pos (by omega : i - (2 ^ total - m.ncols) = j - (2 ^ total - m.ncols))] at hent
      · rw [if_neg hij]
        rwa [if_neg (by omega : ¬ i - (2 ^ total - m.ncols) = j - (2 ^ total - m.ncols))]
          at hent
    · rw [if_neg hb]
      by_cases hij : i = j
      · rw [if_pos hij, if_pos hij, sub_self, norm_zero']
        norm_num [idTol]
      · rw [if_neg hij, if_neg hij, norm_zero']
        norm_num [idTol]

theorem controlled_eq (g : Gate) (controls : List ℕ)
    (hrow : g.mat.nrows = 2 ^ g.targets.length)
    (hcols : g.mat.ncols = 2 ^ g.targets.length) (hU : is_unit g.mat) :
    g.controlled controls =
      if (g.targets ++ controls).Nodup
      then some ⟨ctrlMat g.mat (g.targets.length + controls.length), g.targets ++ controls⟩
      else none := by
  have hle : g.mat.ncols ≤ 2 ^ (g.targets.length + controls.length) := by
    rw [hcols]
    exact Nat.pow_le_pow_right (by norm_num) (by omega)
  have hcU : is_unit (ctrlMat g.mat (g.targets.length + controls.length)) :=
    is_unit_ctrlMat g.mat _ hle (hrow.trans hcols.symm) hU
  unfold Gate.controlled
  by_cases hnd : (g.targets ++ controls).Nodup
  · rw [if_pos hnd]
    exact (gate_new_eq_some_iff _ _ _).mpr
      ⟨rfl, by rw [List.length_append]; exact rfl, hcU, hnd, rfl⟩
  · rw [if_neg hnd]
    exact (gate_new_eq_none_iff _ _).mpr (Or.inr (Or.inr (Or.inr hnd)))

theorem gate_cx_eq {control target : ℕ} (h : control ≠ target) :
    Gate.cx control target = some ⟨ctrlMat Xmat 2, [target, control]⟩ := by
  show (Gate.x target).controlled [control] = _
  have hnd : ((Gate.x target).targets ++ [control]).Nodup := by
    show ([target] ++ [control]).Nodup
    simp [List.nodup_cons]
    exact Ne.symm h
  rw [controlled_eq (Gate.x target) [control] rfl rfl is_unit_Xmat, if_pos hnd]
  exact rfl

/-! ### Norm preservation through `run` -/

theorem norm_one' : norm 1 = 1 := by
  rw [show (1 : C) = Complex.ofReal 1 by norm_num, norm_ofReal]
  norm_num

theorem vsum_eq_dot (mm : ℕ) (u : ℕ → C) :
    vsum mm u =
      (Matrix.dotProduct (star fun i : Fin mm => u i.val) fun i : Fin mm => u i.val).re := by
  unfold vsum
  rw [Matrix.dotProduct, Complex.re_sum,
    ← Fin.sum_univ_eq_sum_range (fun i => norm (u i) ^ 2) mm]
  apply Finset.sum_congr rfl
  intro i _
  rw [Pi.star_apply, ← norm_sq_eq]

theorem vsum_mulVec_eq (g : Gate) (n : ℕ) (hN : g.targets.Nodup) (hR : targetsOk n g)
    (hcols : g.mat.ncols = 2 ^ g.targets.length) (hU : exactUnitary g) (v : ℕ → C) :
    vsum (2 ^ n) ((g.turn_big n).mulVec v) = vsum (2 ^ n) v := by
  have hunit := toM_turn_big_unitary g n hN hR hcols hU
  have hunit' : (toM (g.turn_big n) (2 ^ n))ᴴ * toM (g.turn_big n) (2 ^ n) = 1 :=
    Matrix.mul_eq_one_comm.mp hunit
  rw [vsum_eq_dot, vsum_eq_dot]
  have hfn : (fun i : Fin (2 ^ n) => ((g.turn_big n).mulVec v) i.val) =
      (toM (g.turn_big n) (2 ^ n)).mulVec (fun i : Fin (2 ^ n) => v i.val) := by
    funext i
    show (∑ k in Finset.range (2 ^ n), (g.turn_big n).entry i.val k * v k) = _
    show _ = ∑ k : Fin (2 ^ n), toM (g.turn_big n) (2 ^ n) i k * v k.val
    rw [← Fin.sum_univ_eq_sum_range (fun k => (g.turn_big n).entry i.val k * v k) (2 ^ n)]
    rfl
  rw [hfn]
  have hdot : Matrix.dotProduct
      (star ((toM (g.turn_big n) (2 ^ n)).mulVec fun i : Fin (2 ^ n) => v i.val))
      ((toM (g.turn_big n) (2 ^ n)).mulVec fun i : Fin (2 ^ n) => v i.val) =
      Matrix.dotProduct (star fun i : Fin (2 ^ n) => v i.val) fun i : Fin (2 ^ n) => v i.val := by
    rw [Matrix.star_mulVec, Matrix.dotProduct_mulVec, Matrix.vecMul_vecMul, hunit',
      Matrix.vecMul_one]
  rw [hdot]

theorem vsum_run_fold (n : ℕ) :
    ∀ (gs : List Gate) (v : ℕ → C),
      (∀ g ∈ gs, g.targets.Nodup ∧ targetsOk n g ∧
        g.mat.ncols = 2 ^ g.targets.length ∧ exactUnitary g) →
      vsum (2 ^ n) (gs.foldl (fun cur gate => (gate.turn_big n).mulVec cur) v) =
        vsum (2 ^ n) v := by
  intro gs
  induction gs with
  | nil => intro v _; rfl
  | cons g rest ih =>
      intro v hall
      rw [List.foldl_cons]
      obtain ⟨hN, hR, hcols, hU⟩ := hall g (by simp)
      rw [ih _ (fun g' hg' => hall g' (by simp [hg'])), vsum_mulVec_eq g n hN hR hcols hU]

theorem run_always (c : Circuit) :
    c.run = some ((List.range (2 ^ c.qubits)).map fun i =>
      (toBinString c.qubits i,
        (c.gates.foldl (fun cur gate => (gate.turn_big c.qubits).mulVec cur)
          (fun j => if j = 0 then 1 else 0)) i)) := by
  have hpos : ¬ (0 ≥ 2 ^ c.qubits) := by
    have := Nat.pos_pow_of_pos c.qubits (show 0 < 2 by norm_num)
    omega
  unfold Circuit.run Circuit.get_vec
  rw [if_neg hpos]

theorem vsum_basis_zero (q : ℕ) :
    vsum (2 ^ q) (fun j => if j = 0 then 1 else 0) = 1 := by
  unfold vsum
  rw [Finset.sum_eq_single_of_mem 0
    (Finset.mem_range.mpr (Nat.pos_pow_of_pos q (by norm_num)))]
  · show norm (1 : C) ^ 2 = 1
    rw [norm_one']
    norm_num
  · intro b _ hb
    show norm (if b = 0 then (1 : C) else 0) ^ 2 = 0
    rw [if_neg hb, norm_zero']
    norm_num

theorem list_range_map_sum (mm : ℕ) (f : ℕ → ℝ) :
    ((List.range mm).map f).sum = ∑ i in Finset.range mm, f i := by
  induction mm with
  | zero => simp
  | succ k ih =>
      rw [List.range_succ, List.map_append, List.sum_append, Finset.sum_range_succ, ih]
      simp

theorem resSum_run (c : Circuit) (res : List (String × C)) (hres : c.run = some res) :
    resSum res = vsum (2 ^ c.qubits)
      (c.gates.foldl (fun cur gate => (gate.turn_big c.qubits).mulVec cur)
        (fun j => if j = 0 then 1 else 0)) := by
  rw [run_always c] at hres
  have hres' := Option.some.inj hres
  subst hres'
  unfold resSum vsum
  rw [List.map_map, list_range_map_sum]
  rfl

/-! ### The nearly-unitary slack gate -/

theorem mat2_det (a b c d : C) : (mat2 a b c d).det = a * d - b * c := by
  show (toM (mat2 a b c d) 2).det = _
  rw [Matrix.det_fin_two]
  simp [toM, mat2]

theorem smallIdx_single (t x : ℕ) : smallIdx [t] x = if x.testBit t then 1 else 0 := by
  unfold smallIdx smallIdxGo
  rw [shift_and_one]
  by_cases hb : x.testBit t
  · rw [if_pos hb, if_pos rfl, (by decide : (0 ||| 1 <<< 0 : ℕ) = 1)]
    exact rfl
  · rw [if_neg hb, if_neg (by norm_num)]
    exact rfl

theorem slackMat_mul_adjoint (i j : ℕ) (hi : i < 2) (hj : j < 2) :
    (slackMat.mul slackMat.adjoint).entry i j =
      if i = j then Complex.ofReal (cSlack * cSlack) else 0 := by
  show (∑ k in Finset.range 2, slackMat.entry i k * star (slackMat.entry j k)) = _
  interval_cases i <;> interval_cases j <;>
    simp [slackMat, mat2, Finset.sum_range_succ, Complex.conj_ofReal,
      ← Complex.ofReal_mul]

theorem is_unit_slackMat : is_unit slackMat := by
  refine ⟨?_, rfl, ?_⟩
  · show detTol ≤ norm (mat2 (Complex.ofReal cSlack) 0 0 (Complex.ofReal cSlack)).det
    rw [mat2_det, mul_zero, sub_zero, ← Complex.ofReal_mul, norm_ofReal]
    rw [abs_of_nonneg (by norm_num [cSlack])]
    norm_num [cSlack, detTol]
  · intro i j hi hj
    have hi2 : i < 2 := hi
    have hj2 : j < 2 := hj
    rw [slackMat_mul_adjoint i j hi2 hj2]
    by_cases hij : i = j
    · rw [if_pos hij, if_pos hij,
        show Complex.ofReal (cSlack * cSlack) - 1 = Complex.ofReal (cSlack * cSlack - 1) by
          push_cast; ring,
        norm_ofReal]
      rw [abs_of_nonpos (by norm_num [cSlack])]
      norm_num [cSlack, idTol]
    · rw [if_neg hij, if_neg hij, norm_zero']
      norm_num [idTol]

theorem gate_new_slack : Gate.new slackMat [0] = some gSlack :=
  (gate_new_eq_some_iff _ _ _).mpr ⟨rfl, rfl, is_unit_slackMat, by simp, rfl⟩

theorem turn_big_slack_entry (n : ℕ) {r c : ℕ} (hr : r < 2 ^ n) (hc : c < 2 ^ n) :
    (gSlack.turn_big n).entry r c = if r = c then Complex.ofReal cSlack else 0 := by
  have htg : gSlack.targets = [0] := rfl
  by_cases hrc : r = c
  · subst hrc
    rw [turn_big_entry_match (matchP_refl _ _ _), if_pos rfl, htg, smallIdx_single]
    by_cases hb : r.testBit 0
    · rw [if_pos hb]
      exact rfl
    · rw [if_neg hb]
      exact rfl
  · rw [if_neg hrc]
    by_cases hm : matchP gSlack.targets n r c
    · rw [turn_big_entry_match hm, htg, smallIdx_single, smallIdx_single]
      have hbits : r.testBit 0 ≠ c.testBit 0 := by
        intro heq
        apply hrc
        apply eq_of_testBit_lt hr hc
        intro p hp
        by_cases hp0 : p = 0
        · rw [hp0]; exact heq
        · exact hm p hp (by simp [htg, hp0])
      cases hb : r.testBit 0 <;> cases hb' : c.testBit 0
      · exact absurd (hb.trans hb'.symm) hbits
      · exact rfl
      · exact rfl
      · exact absurd (hb.trans hb'.symm) hbits
    · exact turn_big_entry_nomatch hm

theorem toM_turn_big_slack (n : ℕ) :
    toM (gSlack.turn_big n) (2 ^ n) = (Complex.ofReal cSlack) • (1 : Matrix (Fin (2 ^ n)) (Fin (2 ^ n)) C) := by
  ext i j
  show (gSlack.turn_big n).entry i.val j.val = _
  rw [turn_big_slack_entry n i.isLt j.isLt, Matrix.smul_apply, Matrix.one_apply]
  by_cases hij : i = j
  · rw [if_pos (congrArg Fin.val hij), if_pos hij, smul_eq_mul, mul_one]
  · rw [if_neg (fun hv => hij (Fin.ext hv)), if_neg hij, smul_eq_mul, mul_zero]

theorem det_turn_big_slack (n : ℕ) :
    (gSlack.turn_big n).det = Complex.ofReal (cSlack ^ (2 ^ n)) := by
  show (toM (gSlack.turn_big n) (2 ^ n)).det = _
  rw [toM_turn_big_slack n, Matrix.det_smul, Matrix.det_one, mul_one, Fintype.card_fin,
    Complex.ofReal_pow]

/-! ### Determinant magnitude bound for the slack gate at 24 qubits -/

theorem sqStep {x : ℝ} (hx : 0 ≤ x) (k : ℕ) {b c : ℝ} (hxb : x ^ (2 ^ k) ≤ b)
    (hbc : b ^ 2 ≤ c) : x ^ (2 ^ (k + 1)) ≤ c := by
  have h1 : x ^ (2 ^ (k + 1)) = (x ^ (2 ^ k)) ^ 2 := by
    rw [pow_succ, pow_mul]
  rw [h1]
  calc (x ^ (2 ^ k)) ^ 2 ≤ b ^ 2 := by
        apply pow_le_pow_left₀ (pow_nonneg hx _) hxb
  _ ≤ c := hbc

theorem cSlack_pow_small : cSlack ^ (2 ^ 24) < detTol := by
  have e0 : cSlack ^ (2 ^ 0) ≤ (999998000000000 : ℝ) / 10 ^ 15 := by
    norm_num [cSlack]
  have e1 : cSlack ^ (2 ^ 1) ≤ (999996000004000 : ℝ) / 10 ^ 15 :=
    sqStep (by norm_num [cSlack]) 0 e0 (by norm_num)
  have e2 : cSlack ^ (2 ^ 2) ≤ (999992000024000 : ℝ) / 10 ^ 15 :=
    sqStep (by norm_num [cSlack]) 1 e1 (by norm_num)
  have e3 : cSlack ^ (2 ^ 3) ≤ (999984000112000 : ℝ) / 10 ^ 15 :=
    sqStep (by norm_num [cSlack]) 2 e2 (by norm_num)
  have e4 : cSlack ^ (2 ^ 4) ≤ (999968000479997 : ℝ) / 10 ^ 15 :=
    sqStep (by norm_num [cSlack]) 3 e3 (by norm_num)
  have e5 : cSlack ^ (2 ^ 5) ≤ (999936001983964 : ℝ) / 10 ^ 15 :=
    sqStep (by norm_num [cSlack]) 4 e4 (by norm_num)
  have e6 : cSlack ^ (2 ^ 6) ≤ (999872008063675 : ℝ) / 10 ^ 15 :=
    sqStep (by norm_num [cSlack]) 5 e5 (by norm_num)
  have e7 : cSlack ^ (2 ^ 7) ≤ (999744032509286 : ℝ) / 10 ^ 15 :=
    sqStep (by norm_num [cSlack]) 6 e6 (by norm_num)
  have e8 : cSlack ^ (2 ^ 8) ≤ (999488130537929 : ℝ) / 10 ^ 15 :=
    sqStep (by norm_num [cSlack]) 7 e7 (by norm_num)
  have e9 : cSlack ^ (2 ^ 9) ≤ (998976523086205 : ℝ) / 10 ^ 15 :=
    sqStep (by norm_num [cSlack]) 8 e8 (by norm_num)
  have e10 : cSlack ^ (2 ^ 10) ≤ (997954093677404 : ℝ) / 10 ^ 15 :=
    sqStep (by norm_num [cSlack]) 9 e9 (by norm_num)
  have e11 : cSlack ^ (2 ^ 11) ≤ (995912373087489 : ℝ) / 10 ^ 15 :=
    sqStep (by norm_num [cSlack]) 10 e10 (by norm_num)
  have e12 : cSlack ^ (2 ^ 12) ≤ (991841454868754 : ℝ) / 10 ^ 15 :=
    sqStep (by norm_num [cSlack]) 11 e11 (by norm_num)
  have e13 : cSlack ^ (2 ^ 13) ≤ (983749471596167 : ℝ) / 10 ^ 15 :=
    sqStep (by norm_num [cSlack]) 12 e12 (by norm_num)
  have e14 : cSlack ^ (2 ^ 14) ≤ (967763022865738 : ℝ) / 10 ^ 15 :=
    sqStep (by norm_num [cSlack]) 13 e13 (by norm_num)
  have e15 : cSlack ^ (2 ^ 15) ≤ (936565268426231 : ℝ) / 10 ^ 15 :=
    sqStep (by norm_num [cSlack]) 14 e14 (by norm_num)
  have e16 : cSlack ^ (2 ^ 16) ≤ (877154502022299 : ℝ) / 10 ^ 15 :=
    sqStep (by norm_num [cSlack]) 15 e15 (by norm_num)
  have e17 : cSlack ^ (2 ^ 17) ≤ (769400020417988 : ℝ) / 10 ^ 15 :=
    sqStep (by norm_num [cSlack]) 16 e16 (by norm_num)
  have e18 : cSlack ^ (2 ^ 18) ≤ (591976391419201 : ℝ) / 10 ^ 15 :=
    sqStep (by norm_num [cSlack]) 17 e17 (by norm_num)
  have e19 : cSlack ^ (2 ^ 19) ≤ (350436047997700 : ℝ) / 10 ^ 15 :=
    sqStep (by norm_num [cSlack]) 18 e18 (by norm_num)
  have e20 : cSlack ^ (2 ^ 20) ≤ (122805423736247 : ℝ) / 10 ^ 15 :=
    sqStep (by norm_num [cSlack]) 19 e19 (by norm_num)
  have e21 : cSlack ^ (2 ^ 21) ≤ (15081172099040 : ℝ) / 10 ^ 15 :=
    sqStep (by norm_num [cSlack]) 20 e20 (by norm_num)
  have e22 : cSlack ^ (2 ^ 22) ≤ (227441751881 : ℝ) / 10 ^ 15 :=
    sqStep (by norm_num [cSlack]) 21 e21 (by norm_num)
  have e23 : cSlack ^ (2 ^ 23) ≤ (51729751 : ℝ) / 10 ^ 15 :=
    sqStep (by norm_num [cSlack]) 22 e22 (by norm_num)
  have e24 : cSlack ^ (2 ^ 24) ≤ (3 : ℝ) / 10 ^ 15 :=
    sqStep (by norm_num [cSlack]) 23 e23 (by norm_num)
  calc cSlack ^ (2 ^ 24) ≤ (3 : ℝ) / 10 ^ 15 := e24
  _ < detTol := by norm_num [detTol]

theorem not_is_unit_turn_big_slack : ¬ is_unit (gSlack.turn_big 24) := by
  intro h
  have hdet := h.1
  rw [det_turn_big_slack 24, norm_ofReal,
    abs_of_nonneg (pow_nonneg (by norm_num [cSlack]) _)] at hdet
  exact absurd hdet (not_le.mpr cSlack_pow_small)

/-! ### Running the fifty-slack-gate circuit -/

theorem slack_mulVec (v : ℕ → C) {i : ℕ} (hi : i < 2) :
    ((gSlack.turn_big 1).mulVec v) i = Complex.ofReal cSlack * v i := by
  show (∑ k in Finset.range 2, (gSlack.turn_big 1).entry i k * v k) = _
  rw [Finset.sum_range_succ, Finset.sum_range_succ, Finset.sum_range_zero, zero_add,
    turn_big_slack_entry 1 (r := i) (c := 0) hi (by norm_num),
    turn_big_slack_entry 1 (r := i) (c := 1) hi (by norm_num)]
  interval_cases i <;> simp

theorem slack_fold (m : ℕ) :
    ∀ (v : ℕ → C) {i : ℕ}, i < 2 →
      ((List.replicate m gSlack).foldl
        (fun cur gate => (gate.turn_big 1).mulVec cur) v) i =
        Complex.ofReal cSlack ^ m * v i := by
  induction m with
  | zero => intro v i _; simp
  | succ k ih =>
      intro v i hi
      rw [List.replicate_succ, List.foldl_cons, ih _ hi, slack_mulVec v hi]
      ring

theorem toBinString_1_0 : toBinString 1 0 = "0" := by
  simp [toBinString, Nat.log2]

theorem toBinString_1_1 : toBinString 1 1 = "1" := by
  simp [toBinString, Nat.log2]
  rfl

theorem run_slack_circuit :
    cSlackCircuit.run = some [("0", Complex.ofReal cSlack ^ 50), ("1", 0)] := by
  rw [run_always]
  congr 1
  rw [show (2 : ℕ) ^ cSlackCircuit.qubits = 2 from rfl,
    show List.range 2 = [0, 1] from by decide]
  simp only [List.map_cons, List.map_nil]
  rw [show cSlackCircuit.qubits = 1 from rfl,
    show cSlackCircuit.gates = List.replicate 50 gSlack from rfl]
  rw [toBinString_1_0, toBinString_1_1,
    slack_fold 50 _ (show (0:ℕ) < 2 by norm_num),
    slack_fold 50 _ (show (1:ℕ) < 2 by norm_num)]
  norm_num

theorem resSum_slack :
    resSum [("0", Complex.ofReal cSlack ^ 50), ("1", 0)] = cSlack ^ 100 := by
  unfold resSum
  simp only [List.map_cons, List.map_nil, List.sum_cons, List.sum_nil]
  rw [norm_zero']
  rw [← Complex.ofReal_pow, norm_ofReal,
    abs_of_nonneg (pow_nonneg (by norm_num [cSlack]) _)]
  rw [← pow_mul]
  norm_num

theorem slack_sum_off : ¬ |cSlack ^ 100 - 1| ≤ 1 / 10000 := by
  have h1 : cSlack ^ 100 < 9999 / 10000 := by norm_num [cSlack]
  have h2 : (0:ℝ) ≤ cSlack ^ 100 := pow_nonneg (by norm_num [cSlack]) _
  rw [abs_of_nonpos (by nlinarith)]
  intro hcon
  nlinarith

/-! ### The Bell-state scenario -/

theorem turn_big_entry_eval (g : Gate) (n row col : ℕ) :
    (g.turn_big n).entry row col =
      if matchB g.targets n row col
      then g.mat.entry (smallIdx g.targets row) (smallIdx g.targets col)
      else 0 := rfl

theorem bellStep1_eval : bellStep1 = (.ok (), ⟨2, [Gate.h 0]⟩) := by
  unfold bellStep1 Circuit.new Circuit.h
  rw [if_neg (by norm_num)]
  rfl

theorem bellStep2_eval : bellStep2 = (.ok (), ⟨2, [Gate.h 0, cxGate]⟩) := by
  unfold bellStep2
  rw [bellStep1_eval]
  show Circuit.cx ⟨2, [Gate.h 0]⟩ 0 1 = _
  unfold Circuit.cx
  rw [if_neg (by norm_num), gate_cx_eq (show (0:ℕ) ≠ 1 by norm_num)]
  rfl

theorem bellCircuit_eval : bellCircuit = ⟨2, [Gate.h 0, cxGate]⟩ := by
  unfold bellCircuit
  rw [bellStep2_eval]

theorem bell_v1 : ∀ i, i < 4 →
    (((Gate.h 0).turn_big 2).mulVec fun j => if j = 0 then (1 : C) else 0) i =
      (if i = 0 then hVal else if i = 1 then hVal else 0) := by
  intro i hi
  show (∑ k in Finset.range 4,
    ((Gate.h 0).turn_big 2).entry i k * (if k = 0 then (1 : C) else 0)) = _
  rw [Finset.sum_range_succ, Finset.sum_range_succ, Finset.sum_range_succ,
    Finset.sum_range_succ, Finset.sum_range_zero]
  norm_num
  interval_cases i
  · rw [turn_big_entry_eval, if_pos (by decide)]
    show hVal = _
    norm_num
  · rw [turn_big_entry_eval, if_pos (by decide)]
    show hVal = _
    norm_num
  · rw [turn_big_entry_eval, if_neg (by decide)]
    norm_num
  · rw [turn_big_entry_eval, if_neg (by decide)]
    norm_num

theorem bell_final : ∀ i, i < 4 →
    ((cxGate.turn_big 2).mulVec
      (((Gate.h 0).turn_big 2).mulVec fun j => if j = 0 then (1 : C) else 0)) i =
      (if i = 0 then hVal else if i = 3 then hVal else 0) := by
  intro i hi
  show (∑ k in Finset.range 4,
    (cxGate.turn_big 2).entry i k *
      ((((Gate.h 0).turn_big 2).mulVec fun j => if j = 0 then (1 : C) else 0) k)) = _
  rw [Finset.sum_range_succ, Finset.sum_range_succ, Finset.sum_range_succ,
    Finset.sum_range_succ, Finset.sum_range_zero,
    bell_v1 0 (by norm_num), bell_v1 1 (by norm_num), bell_v1 2 (by norm_num),
    bell_v1 3 (by norm_num)]
  norm_num
  interval_cases i
  · rw [turn_big_entry_eval, if_pos (by decide), turn_big_entry_eval, if_pos (by decide)]
    show (1 : C) * hVal + (0 : C) * hVal = hVal
    norm_num
  · rw [turn_big_entry_eval, if_pos (by decide), turn_big_entry_eval, if_pos (by decide)]
    show (0 : C) * hVal + (0 : C) * hVal = 0
    norm_num
  · rw [turn_big_entry_eval, if_pos (by decide), turn_big_entry_eval, if_pos (by decide)]
    show (0 : C) * hVal + (0 : C) * hVal = 0
    norm_num
  · rw [turn_big_entry_eval, if_pos (by decide), turn_big_entry_eval, if_pos (by decide)]
    show (0 : C) * hVal + (1 : C) * hVal = hVal
    norm_num

theorem toBinString_2_0 : toBinString 2 0 = "00" := by
  simp [toBinString, Nat.log2]

theorem toBinString_2_1 : toBinString 2 1 = "01" := by
  simp [toBinString, Nat.log2]
  rfl

theorem toBinString_2_2 : toBinString 2 2 = "10" := by
  simp [toBinString, Nat.log2]
  rfl

theorem toBinString_2_3 : toBinString 2 3 = "11" := by
  simp [toBinString, Nat.log2]
  rfl

theorem run_bell :
    bellCircuit.run = some [("00", hVal), ("01", 0), ("10", 0), ("11", hVal)] := by
  rw [run_always]
  congr 1
  rw [show bellCircuit.qubits = 2 from by rw [bellCircuit_eval],
    show bellCircuit.gates = [Gate.h 0, cxGate] from by rw [bellCircuit_eval]]
  rw [show (2 : ℕ) ^ 2 = 4 from by norm_num, show List.range 4 = [0, 1, 2, 3] from by decide]
  simp only [List.map_cons, List.map_nil, List.foldl_cons, List.foldl_nil]
  rw [toBinString_2_0, toBinString_2_1, toBinString_2_2, toBinString_2_3,
    bell_final 0 (by norm_num), bell_final 1 (by norm_num), bell_final 2 (by norm_num),
    bell_final 3 (by norm_num)]
  norm_num

/-! ### The zero-qubit circuit -/

theorem toBinString_0_0 : toBinString 0 0 = "0" := by
  simp [toBinString, Nat.log2]

theorem run_zero_qubits : (Circuit.new 0).run = some [("0", (1 : C))] := by
  rw [run_always]
  congr 1

/-! ## Claim theorems -/

/-- C1: for every Gate with distinct targets lying in `[0, n)` and every
pair of `n`-bit indices, the `turn_big(n)` entry is zero whenever some bit
position outside the target list differs between row and column, and is
otherwise the small-operator entry at the small indices obtained by
reading, for each list position `i`, the bit of row (resp. column) at
target `i`'s global position and placing it at bit `i`. -/
theorem C1_turn_big_entries (g : Gate) (n : ℕ) (_hN : g.targets.Nodup)
    (_hR : ∀ t ∈ g.targets, t < n) (row col : ℕ) (hrow : row < 2 ^ n)
    (hcol : col < 2 ^ n) :
    ((∃ p, p ∉ g.targets ∧ row.testBit p ≠ col.testBit p) →
      (g.turn_big n).entry row col = 0) ∧
    ((∀ p, p ∉ g.targets → row.testBit p = col.testBit p) →
      (g.turn_big n).entry row col =
        g.mat.entry
          (∑ i in Finset.range g.targets.length,
            if row.testBit (g.targets.getD i 0) then 2 ^ i else 0)
          (∑ i in Finset.range g.targets.length,
            if col.testBit (g.targets.getD i 0) then 2 ^ i else 0)) := by
  constructor
  · rintro ⟨p, hpm, hpb⟩
    have hpn : p < n := by
      by_contra hge
      rw [testBit_high hrow (le_of_not_lt hge), testBit_high hcol (le_of_not_lt hge)] at hpb
      exact hpb rfl
    exact turn_big_entry_nomatch (fun hm => hpb (hm p hpn hpm))
  · intro hall
    rw [turn_big_entry_match (fun p _ hpm => hall p hpm),
      smallIdx_eq_sum, smallIdx_eq_sum]

/-- C1 witness: instantiation at the Pauli-X gate on qubit 0 in a 1-qubit
system, at row 0, column 0. -/
theorem C1_witness :
    (Gate.x 0).targets.Nodup ∧
    ((Gate.x 0).turn_big 1).entry 0 0 =
      (Gate.x 0).mat.entry
        (∑ i in Finset.range (Gate.x 0).targets.length,
          if Nat.testBit 0 ((Gate.x 0).targets.getD i 0) then 2 ^ i else 0)
        (∑ i in Finset.range (Gate.x 0).targets.length,
          if Nat.testBit 0 ((Gate.x 0).targets.getD i 0) then 2 ^ i else 0) :=
  ⟨by decide,
    (C1_turn_big_entries (Gate.x 0) 1 (by decide)
      (by intro t ht; simp only [show (Gate.x 0).targets = [0] from rfl] at ht; simp at ht; omega)
      0 0 (by norm_num) (by norm_num)).2 (fun p _ => rfl)⟩

/-- C2 counterexample: the gate `0.999998·I₂` on qubit 0 passes the
construction contract, its one target lies in `[0, 24)`, yet the embedded
operator `turn_big(24)` fails `is_unit`: its determinant has magnitude
`0.999998^(2^24) < 1e-10`, so the determinant pre-filter rejects it. -/
theorem C2_counterexample :
    Gate.new slackMat [0] = some gSlack ∧ (∀ t ∈ gSlack.targets, t < 24) ∧
      ¬ is_unit (gSlack.turn_big 24) :=
  ⟨gate_new_slack, by decide, not_is_unit_turn_big_slack⟩

/-- C2 (amended): for every successfully constructed Gate whose operator
is exactly unitary (operator times adjoint is exactly the identity), and
every `n` with all targets in `[0, n)`, the matrix returned by
`turn_big(n)` passes `is_unit`.  (For merely tolerance-unitary gates the
determinant-magnitude pre-filter of `is_unit` can fail at large `n`.) -/
theorem C2_turn_big_unit (g : Gate) (hc : constructed g) (hU : exactUnitary g)
    (n : ℕ) (hR : ∀ t ∈ g.targets, t < n) : is_unit (g.turn_big n) := by
  obtain ⟨-, h2, -, h4, -⟩ := (gate_new_eq_some_iff _ _ _).mp hc
  exact is_unit_turn_big g n h4 hR h2 hU

/-- C2 witness: the Pauli-X gate on qubit 0 embedded into a 1-qubit
system passes `is_unit`. -/
theorem C2_witness :
    constructed (Gate.x 0) ∧ exactUnitary (Gate.x 0) ∧
      is_unit ((Gate.x 0).turn_big 1) :=
  ⟨gate_new_Xmat 0, exactUnitary_gate_x 0,
    C2_turn_big_unit (Gate.x 0) (gate_new_Xmat 0) (exactUnitary_gate_x 0) 1
      (by intro t ht; simp only [show (Gate.x 0).targets = [0] from rfl] at ht; simp at ht
          omega)⟩

/-- C3: `Gate::new(mat, targets)` returns `None` iff the matrix is not
square, or its dimension is not `2^(number of targets)`, or the target
list has a duplicate, or the matrix fails the unitarity check; otherwise
it returns a Gate holding exactly the given matrix and target list. -/
theorem C3_gate_new_spec (mat : RMat) (targets : List ℕ) :
    (Gate.new mat targets = none ↔
      mat.ncols ≠ mat.nrows ∨ mat.ncols ≠ 2 ^ targets.length ∨
        ¬ targets.Nodup ∨ ¬ is_unit mat) ∧
    (∀ g, Gate.new mat targets = some g → g = ⟨mat, targets⟩) := by
  constructor
  · rw [gate_new_eq_none_iff]
    tauto
  · intro g hg
    exact ((gate_new_eq_some_iff _ _ _).mp hg).2.2.2.2

/-- C3 witness: the Pauli-X matrix with target list `[0]` constructs, and
the constructed gate holds exactly that matrix and target list. -/
theorem C3_witness :
    Gate.new Xmat [0] = some (Gate.x 0) ∧ Gate.x 0 = ⟨Xmat, [0]⟩ :=
  ⟨gate_new_Xmat 0, (C3_gate_new_spec Xmat [0]).2 _ (gate_new_Xmat 0)⟩

/-- C4: for every square complex matrix, `is_unit` holds iff the
determinant magnitude is at least `1e-10` and the product with the
adjoint is within `1e-5` of the identity entry-wise; and `is_identity`
holds iff the matrix is square with diagonal entries within `1e-5` of one
and off-diagonal entries of magnitude at most `1e-5`. -/
theorem C4_is_unit_spec (M : RMat) (hsq : M.ncols = M.nrows) :
    (is_unit M ↔
      (detTol ≤ Complex.abs M.det ∧
        ∀ i j : Fin M.nrows,
          Complex.abs ((toM M M.nrows * (toM M M.nrows)ᴴ) i j -
            if i = j then 1 else 0) ≤ idTol)) ∧
    (∀ A : RMat, is_identity A ↔
      (A.ncols = A.nrows ∧ ∀ i j, i < A.ncols → j < A.ncols →
        (if i = j then Complex.abs (A.entry i j - 1) ≤ idTol
          else Complex.abs (A.entry i j) ≤ idTol))) := by
  constructor
  · constructor
    · rintro ⟨h1, h2⟩
      refine ⟨by rwa [norm_def_abs] at h1, ?_⟩
      intro i j
      have h := h2.2 i.val j.val
        (show i.val < (M.mul M.adjoint).ncols from show i.val < M.nrows from i.isLt)
        (show j.val < (M.mul M.adjoint).ncols from show j.val < M.nrows from j.isLt)
      rw [toM_mul_adjoint M M.nrows hsq i j]
      by_cases hij : i = j
      · rw [if_pos hij]
        rw [if_pos (congrArg Fin.val hij), norm_def_abs] at h
        exact h
      · rw [if_neg hij, sub_zero]
        rw [if_neg (fun hv => hij (Fin.ext hv)), norm_def_abs] at h
        exact h
    · rintro ⟨h1, h2⟩
      refine ⟨by rwa [norm_def_abs], rfl, ?_⟩
      intro i j hi hj
      have hi' : i < M.nrows := hi
      have hj' : j < M.nrows := hj
      have h := h2 ⟨i, hi'⟩ ⟨j, hj'⟩
      rw [toM_mul_adjoint M M.nrows hsq] at h
      by_cases hij : i = j
      · rw [if_pos hij]
        rw [if_pos (show (⟨i, hi'⟩ : Fin M.nrows) = ⟨j, hj'⟩ from Fin.ext hij)] at h
        rw [norm_def_abs]
        exact h
      · rw [if_neg hij]
        rw [if_neg (show (⟨i, hi'⟩ : Fin M.nrows) ≠ ⟨j, hj'⟩ from
            fun hv => hij (congrArg Fin.val hv)), sub_zero] at h
        rw [norm_def_abs]
        exact h
  · intro A
    unfold is_identity
    constructor
    · rintro ⟨ha, hb⟩
      refine ⟨ha, ?_⟩
      intro i j hi hj
      have := hb i j hi hj
      by_cases hij : i = j
      · rw [if_pos hij] at this ⊢
        rwa [norm_def_abs] at this
      · rw [if_neg hij] at this ⊢
        rwa [norm_def_abs] at this
    · rintro ⟨ha, hb⟩
      refine ⟨ha, ?_⟩
      intro i j hi hj
      have := hb i j hi hj
      by_cases hij : i = j
      · rw [if_pos hij] at this ⊢
        rwa [norm_def_abs]
      · rw [if_neg hij] at this ⊢
        rwa [norm_def_abs]

/-- C4 witness: instantiation at the Pauli-X matrix. -/
theorem C4_witness :
    Xmat.ncols = Xmat.nrows ∧
    (is_unit Xmat ↔
      (detTol ≤ Complex.abs Xmat.det ∧
        ∀ i j : Fin Xmat.nrows,
          Complex.abs ((toM Xmat Xmat.nrows * (toM Xmat Xmat.nrows)ᴴ) i j -
            if i = j then 1 else 0) ≤ idTol)) :=
  ⟨rfl, (C4_is_unit_spec Xmat rfl).1⟩

/-- C7 counterexample: the zero-qubit circuit does NOT make `run` fail:
`run` succeeds and returns the single-entry mapping `{"0" ↦ 1}`, because
`get_vec(0)` only fails for indices at or beyond `2^0 = 1`. -/
theorem C7_counterexample :
    (Circuit.new 0).qubits = 0 ∧ (Circuit.new 0).run = some [("0", (1 : C))] :=
  ⟨rfl, run_zero_qubits⟩

/-- C7 (amended): for every circuit whose qubit count is zero, `run`
succeeds (returns a result mapping) rather than failing: the state space
has dimension `2^0 = 1` and the initial index 0 is in range. -/
theorem C7_run_zero (c : Circuit) (_h : c.qubits = 0) : ∃ res, c.run = some res :=
  ⟨_, run_always c⟩

/-- C7 witness: the empty zero-qubit circuit. -/
theorem C7_witness : (Circuit.new 0).qubits = 0 ∧ ∃ res, (Circuit.new 0).run = some res :=
  ⟨rfl, C7_run_zero (Circuit.new 0) rfl⟩

/-- C10: the standard constructors `Gate::h` and `Gate::x` never fail:
for every target, `Gate::new` applied to their 2×2 matrices and the
one-element target list returns exactly the gate the constructor
unwraps to, so the internal `unwrap` cannot panic. -/
theorem C10_h_x_total (t : ℕ) :
    Gate.new Hmat [t] = some (Gate.h t) ∧ Gate.new Xmat [t] = some (Gate.x t) :=
  ⟨gate_new_Hmat t, gate_new_Xmat t⟩

/-- C5: for a constructed Gate, `controlled` builds the `2^(k+c)`
identity with its trailing `2^k × 2^k` block overwritten by the gate's
operator, pairs it with the original targets followed by the controls,
re-validates via `Gate::new`, and fails exactly when the combined target
list contains a duplicate. -/
theorem C5_controlled_spec (g : Gate) (controls : List ℕ) (hc : constructed g) :
    (∀ i j, i < 2 ^ (g.targets.length + controls.length) →
        j < 2 ^ (g.targets.length + controls.length) →
        (ctrlMat g.mat (g.targets.length + controls.length)).entry i j =
          if 2 ^ (g.targets.length + controls.length) - 2 ^ g.targets.length ≤ i ∧
              2 ^ (g.targets.length + controls.length) - 2 ^ g.targets.length ≤ j
          then g.mat.entry
            (i - (2 ^ (g.targets.length + controls.length) - 2 ^ g.targets.length))
            (j - (2 ^ (g.targets.length + controls.length) - 2 ^ g.targets.length))
          else if i = j then 1 else 0) ∧
    (g.controlled controls = none ↔ ¬ (g.targets ++ controls).Nodup) ∧
    (∀ gg, g.controlled controls = some gg →
      gg = ⟨ctrlMat g.mat (g.targets.length + controls.length), g.targets ++ controls⟩) := by
  obtain ⟨h1, h2, h3, h4, -⟩ := (gate_new_eq_some_iff _ _ _).mp hc
  have hceq := controlled_eq g controls (h1.symm.trans h2) h2 h3
  refine ⟨?_, ?_, ?_⟩
  · intro i j hi hj
    by_cases hb : 2 ^ (g.targets.length + controls.length) - 2 ^ g.targets.length ≤ i ∧
        2 ^ (g.targets.length + controls.length) - 2 ^ g.targets.length ≤ j
    · rw [if_pos hb,
        ctrlMat_entry_high (by rw [h2]; exact hb.1) hi (by rw [h2]; exact hb.2) hj, h2]
    · rw [if_neg hb,
        ctrlMat_entry_other (by rw [h2]; rintro ⟨ha, -, hb', -⟩; exact hb ⟨ha, hb'⟩)]
  · rw [hceq]
    by_cases hnd : (g.targets ++ controls).Nodup
    · rw [if_pos hnd]
      simp [hnd]
    · rw [if_neg hnd]
      simp [hnd]
  · intro gg hgg
    rw [hceq] at hgg
    by_cases hnd : (g.targets ++ controls).Nodup
    · rw [if_pos hnd] at hgg
      exact (Option.some.inj hgg).symm
    · rw [if_neg hnd] at hgg
      cases hgg

/-- C5 witness: instantiation at the Pauli-X gate on qubit 1 with extra
control qubit 0. -/
theorem C5_witness :
    constructed (Gate.x 1) ∧
    ((Gate.x 1).controlled [0] = none ↔ ¬ ((Gate.x 1).targets ++ [0]).Nodup) :=
  ⟨gate_new_Xmat 1, (C5_controlled_spec (Gate.x 1) [0] (gate_new_Xmat 1)).2.1⟩

/-- C6: the 2-qubit circuit built by appending Hadamard on qubit 0 and
then controlled-X with control 0 and target 1 succeeds at each step, and
`run` yields amplitude `1/√2` at labels "00" and "11" and amplitude 0 at
labels "01" and "10", within the numeric tolerance. -/
theorem C6_bell_state :
    bellStep1.1 = Except.ok () ∧ bellStep2.1 = Except.ok () ∧
    ∃ a00 a01 a10 a11,
      bellCircuit.run = some [("00", a00), ("01", a01), ("10", a10), ("11", a11)] ∧
      norm (a00 - Complex.ofReal (1 / Real.sqrt 2)) ≤ idTol ∧
      norm a01 ≤ idTol ∧ norm a10 ≤ idTol ∧
      norm (a11 - Complex.ofReal (1 / Real.sqrt 2)) ≤ idTol := by
  refine ⟨by rw [bellStep1_eval], by rw [bellStep2_eval], hVal, 0, 0, hVal, run_bell,
    ?_, ?_, ?_, ?_⟩
  · rw [show Complex.ofReal (1 / Real.sqrt 2) = hVal from rfl, sub_self, norm_zero']
    norm_num [idTol]
  · rw [norm_zero']
    norm_num [idTol]
  · rw [norm_zero']
    norm_num [idTol]
  · rw [show Complex.ofReal (1 / Real.sqrt 2) = hVal from rfl, sub_self, norm_zero']
    norm_num [idTol]

/-! ### Per-operation case analyses for the circuit mutations -/

theorem appendsValidated_gatesOk {c post : Circuit} (h : appendsValidated c post) :
    gatesOk c → gatesOk post := by
  intro hgc g' hg'
  obtain ⟨gn, rfl, hok, -⟩ := h
  rcases List.mem_append.mp hg' with hmem | hmem
  · exact hgc g' hmem
  · rw [List.mem_singleton.mp hmem]
    exact hok

theorem circuit_h_cases (c : Circuit) (t : ℕ) :
    ((c.h t).1 = Except.ok () ∧ (c.h t).2 = ⟨c.qubits, c.gates ++ [Gate.h t]⟩ ∧
      t < c.qubits) ∨
    ((c.h t).1 = Except.error () ∧ (c.h t).2 = c) := by
  unfold Circuit.h
  by_cases ht : t ≥ c.qubits
  · rw [if_pos ht]
    right
    exact ⟨rfl, rfl⟩
  · rw [if_neg ht]
    left
    exact ⟨rfl, rfl, by omega⟩

theorem circuit_x_cases (c : Circuit) (t : ℕ) :
    ((c.x t).1 = Except.ok () ∧ (c.x t).2 = ⟨c.qubits, c.gates ++ [Gate.x t]⟩ ∧
      t < c.qubits) ∨
    ((c.x t).1 = Except.error () ∧ (c.x t).2 = c) := by
  unfold Circuit.x
  by_cases ht : t ≥ c.qubits
  · rw [if_pos ht]
    right
    exact ⟨rfl, rfl⟩
  · rw [if_neg ht]
    left
    exact ⟨rfl, rfl, by omega⟩

theorem circuit_cx_cases (c : Circuit) (control t : ℕ) :
    (∃ g', (c.cx control t).1 = Except.ok () ∧
      (c.cx control t).2 = ⟨c.qubits, c.gates ++ [g']⟩ ∧
      Gate.new (ctrlMat Xmat 2) ([t] ++ [control]) = some g' ∧
      t < c.qubits ∧ control < c.qubits) ∨
    ((c.cx control t).1 = Except.error () ∧ (c.cx control t).2 = c) := by
  unfold Circuit.cx
  by_cases hcond : t ≥ c.qubits ∨ control ≥ c.qubits
  · rw [if_pos hcond]
    right
    exact ⟨rfl, rfl⟩
  · rw [if_neg hcond]
    push_neg at hcond
    cases hcx : Gate.cx control t with
    | none =>
        right
        exact ⟨rfl, rfl⟩
    | some g' =>
        left
        exact ⟨g', rfl, rfl, hcx, hcond.1, hcond.2⟩

theorem circuit_cnx_cases (c : Circuit) (controls : List ℕ) (t : ℕ) :
    (∃ g', (c.cnx controls t).1 = Except.ok () ∧
      (c.cnx controls t).2 = ⟨c.qubits, c.gates ++ [g']⟩ ∧
      Gate.new (ctrlMat Xmat (1 + controls.length)) ([t] ++ controls) = some g' ∧
      t < c.qubits ∧ ∀ ct ∈ controls, ct < c.qubits) ∨
    ((c.cnx controls t).1 = Except.error () ∧ (c.cnx controls t).2 = c) := by
  unfold Circuit.cnx
  by_cases hcond : t ≥ c.qubits ∨ (controls.any fun control => control ≥ c.qubits) = true
  · rw [if_pos hcond]
    right
    exact ⟨rfl, rfl⟩
  · rw [if_neg hcond]
    rw [not_or] at hcond
    obtain ⟨ht, hany⟩ := hcond
    have hctl : ∀ ct ∈ controls, ct < c.qubits := by
      intro ct hct
      by_contra hge
      exact hany (List.any_eq_true.mpr ⟨ct, hct, by simpa using (by omega : ct ≥ c.qubits)⟩)
    cases hcnx : Gate.cnx controls t with
    | none =>
        right
        exact ⟨rfl, rfl⟩
    | some g' =>
        left
        exact ⟨g', rfl, rfl, hcnx, by omega, hctl⟩

theorem circuit_add_gate_cases (c : Circuit) (g : Gate) :
    ((c.add_gate g).1 = Except.ok () ∧ (c.add_gate g).2 = ⟨c.qubits, c.gates ++ [g]⟩ ∧
      ∀ x ∈ g.targets, x < c.qubits) ∨
    ((c.add_gate g).1 = Except.error () ∧ (c.add_gate g).2 = c) := by
  unfold Circuit.add_gate
  by_cases hcond : (g.targets.any fun x => x ≥ c.qubits) = true
  · rw [if_pos hcond]
    right
    exact ⟨rfl, rfl⟩
  · rw [if_neg hcond]
    left
    refine ⟨rfl, rfl, ?_⟩
    intro x hx
    by_contra hge
    exact hcond (List.any_eq_true.mpr ⟨x, hx, by simpa using (by omega : x ≥ c.qubits)⟩)

theorem h_op_spec (c : Circuit) (t : ℕ) :
    ((c.h t).1 = Except.ok () → appendsValidated c (c.h t).2) ∧
    ((c.h t).1 = Except.error () → (c.h t).2 = c) ∧
    (gatesOk c → gatesOk (c.h t).2) := by
  rcases circuit_h_cases c t with ⟨hok, hpost, htlt⟩ | ⟨herr, hpost⟩
  · have happ : appendsValidated c (c.h t).2 := by
      refine ⟨Gate.h t, hpost, ?_, gate_new_constructed (gate_new_Hmat t)⟩
      intro x hx
      rw [show (Gate.h t).targets = [t] from rfl] at hx
      rw [List.mem_singleton.mp hx]
      exact htlt
    refine ⟨fun _ => happ, fun herr' => ?_, fun hgc => appendsValidated_gatesOk happ hgc⟩
    rw [hok] at herr'
    cases herr'
  · refine ⟨fun hok' => ?_, fun _ => hpost, fun hgc => ?_⟩
    · rw [herr] at hok'
      cases hok'
    · rw [hpost]
      exact hgc

theorem x_op_spec (c : Circuit) (t : ℕ) :
    ((c.x t).1 = Except.ok () → appendsValidated c (c.x t).2) ∧
    ((c.x t).1 = Except.error () → (c.x t).2 = c) ∧
    (gatesOk c → gatesOk (c.x t).2) := by
  rcases circuit_x_cases c t with ⟨hok, hpost, htlt⟩ | ⟨herr, hpost⟩
  · have happ : appendsValidated c (c.x t).2 := by
      refine ⟨Gate.x t, hpost, ?_, gate_new_constructed (gate_new_Xmat t)⟩
      intro x hx
      rw [show (Gate.x t).targets = [t] from rfl] at hx
      rw [List.mem_singleton.mp hx]
      exact htlt
    refine ⟨fun _ => happ, fun herr' => ?_, fun hgc => appendsValidated_gatesOk happ hgc⟩
    rw [hok] at herr'
    cases herr'
  · refine ⟨fun hok' => ?_, fun _ => hpost, fun hgc => ?_⟩
    · rw [herr] at hok'
      cases hok'
    · rw [hpost]
      exact hgc

theorem cx_op_spec (c : Circuit) (control t : ℕ) :
    ((c.cx control t).1 = Except.ok () → appendsValidated c (c.cx control t).2) ∧
    ((c.cx control t).1 = Except.error () → (c.cx control t).2 = c) ∧
    (gatesOk c → gatesOk (c.cx control t).2) := by
  rcases circuit_cx_cases c control t with ⟨g', hok, hpost, hnew, ht, hctl⟩ | ⟨herr, hpost⟩
  · have hg' := (gate_new_eq_some_iff _ _ _).mp hnew
    have happ : appendsValidated c (c.cx control t).2 := by
      refine ⟨g', hpost, ?_, gate_new_constructed hnew⟩
      intro x hx
      rw [hg'.2.2.2.2] at hx
      simp at hx
      rcases hx with rfl | rfl
      · exact ht
      · exact hctl
    refine ⟨fun _ => happ, fun herr' => ?_, fun hgc => appendsValidated_gatesOk happ hgc⟩
    rw [hok] at herr'
    cases herr'
  · refine ⟨fun hok' => ?_, fun _ => hpost, fun hgc => ?_⟩
    · rw [herr] at hok'
      cases hok'
    · rw [hpost]
      exact hgc

theorem cnx_op_spec (c : Circuit) (controls : List ℕ) (t : ℕ) :
    ((c.cnx controls t).1 = Except.ok () → appendsValidated c (c.cnx controls t).2) ∧
    ((c.cnx controls t).1 = Except.error () → (c.cnx controls t).2 = c) ∧
    (gatesOk c → gatesOk (c.cnx controls t).2) := by
  rcases circuit_cnx_cases c controls t with ⟨g', hok, hpost, hnew, ht, hctl⟩ | ⟨herr, hpost⟩
  · have hg' := (gate_new_eq_some_iff _ _ _).mp hnew
    have happ : appendsValidated c (c.cnx controls t).2 := by
      refine ⟨g', hpost, ?_, gate_new_constructed hnew⟩
      intro x hx
      rw [hg'.2.2.2.2] at hx
      simp only [List.cons_append, List.nil_append, List.mem_cons] at hx
      rcases hx with rfl | hx'
      · exact ht
      · exact hctl x hx'
    refine ⟨fun _ => happ, fun herr' => ?_, fun hgc => appendsValidated_gatesOk happ hgc⟩
    rw [hok] at herr'
    cases herr'
  · refine ⟨fun hok' => ?_, fun _ => hpost, fun hgc => ?_⟩
    · rw [herr] at hok'
      cases hok'
    · rw [hpost]
      exact hgc

theorem add_gate_op_spec (c : Circuit) (g : Gate) (hg : constructed g) :
    ((c.add_gate g).1 = Except.ok () → appendsValidated c (c.add_gate g).2) ∧
    ((c.add_gate g).1 = Except.error () → (c.add_gate g).2 = c) ∧
    (gatesOk c → gatesOk (c.add_gate g).2) := by
  rcases circuit_add_gate_cases c g with ⟨hok, hpost, htlt⟩ | ⟨herr, hpost⟩
  · have happ : appendsValidated c (c.add_gate g).2 := ⟨g, hpost, htlt, hg⟩
    refine ⟨fun _ => happ, fun herr' => ?_, fun hgc => appendsValidated_gatesOk happ hgc⟩
    rw [hok] at herr'
    cases herr'
  · refine ⟨fun hok' => ?_, fun _ => hpost, fun hgc => ?_⟩
    · rw [herr] at hok'
      cases hok'
    · rw [hpost]
      exact hgc

/-- C8: every circuit mutation operation (`h`, `x`, `cx`, `cnx`,
`add_gate`) either appends exactly one gate whose referenced qubit
indices all lie in `[0, n)` and that passed gate construction, or reports
failure with the circuit left completely unmodified; consequently each
operation preserves the invariant that every held Gate's targets lie in
`[0, n)`, which holds for a fresh circuit. -/
theorem C8_mutation_safety (c : Circuit) (t control : ℕ) (controls : List ℕ)
    (g : Gate) (hg : constructed g) :
    ((c.h t).1 = Except.ok () → appendsValidated c (c.h t).2) ∧
    ((c.h t).1 = Except.error () → (c.h t).2 = c) ∧
    ((c.x t).1 = Except.ok () → appendsValidated c (c.x t).2) ∧
    ((c.x t).1 = Except.error () → (c.x t).2 = c) ∧
    ((c.cx control t).1 = Except.ok () → appendsValidated c (c.cx control t).2) ∧
    ((c.cx control t).1 = Except.error () → (c.cx control t).2 = c) ∧
    ((c.cnx controls t).1 = Except.ok () → appendsValidated c (c.cnx controls t).2) ∧
    ((c.cnx controls t).1 = Except.error () → (c.cnx controls t).2 = c) ∧
    ((c.add_gate g).1 = Except.ok () → appendsValidated c (c.add_gate g).2) ∧
    ((c.add_gate g).1 = Except.error () → (c.add_gate g).2 = c) ∧
    (gatesOk c → gatesOk (c.h t).2) ∧ (gatesOk c → gatesOk (c.x t).2) ∧
    (gatesOk c → gatesOk (c.cx control t).2) ∧
    (gatesOk c → gatesOk (c.cnx controls t).2) ∧
    (gatesOk c → gatesOk (c.add_gate g).2) ∧
    (∀ n, gatesOk (Circuit.new n)) := by
  obtain ⟨ha1, ha2, ha3⟩ := h_op_spec c t
  obtain ⟨hb1, hb2, hb3⟩ := x_op_spec c t
  obtain ⟨hc1, hc2, hc3⟩ := cx_op_spec c control t
  obtain ⟨hd1, hd2, hd3⟩ := cnx_op_spec c controls t
  obtain ⟨he1, he2, he3⟩ := add_gate_op_spec c g hg
  exact ⟨ha1, ha2, hb1, hb2, hc1, hc2, hd1, hd2, he1, he2, ha3, hb3, hc3, hd3, he3,
    fun _ g' hg' => absurd hg' (List.not_mem_nil g')⟩

/-- C8 witness: appending Hadamard on qubit 0 to a fresh 1-qubit circuit
appends exactly one validated gate. -/
theorem C8_witness :
    constructed (Gate.x 0) ∧ appendsValidated (Circuit.new 1) ((Circuit.new 1).h 0).2 :=
  ⟨gate_new_Xmat 0,
    (C8_mutation_safety (Circuit.new 1) 0 0 [0] (Gate.x 0) (gate_new_Xmat 0)).1 rfl⟩

/-- C9 counterexample: a 1-qubit circuit holding fifty copies of the
constructed gate `0.999998·I₂` runs successfully, but the sum of squared
amplitude magnitudes is `0.999998^100 ≈ 0.9998`, which is NOT within
`1e-4` of one. -/
theorem C9_counterexample :
    (∀ g ∈ cSlackCircuit.gates, constructed g) ∧
    cSlackCircuit.run = some [("0", Complex.ofReal cSlack ^ 50), ("1", 0)] ∧
    ¬ |resSum [("0", Complex.ofReal cSlack ^ 50), ("1", 0)] - 1| ≤ 1 / 10000 := by
  refine ⟨?_, run_slack_circuit, ?_⟩
  · intro g hgm
    rw [List.eq_of_mem_replicate (show g ∈ List.replicate 50 gSlack from hgm)]
    exact gate_new_slack
  · rw [resSum_slack]
    exact slack_sum_off

/-- C9 (amended): for every circuit whose gates all passed construction
AND have exactly unitary operators with in-range targets, `run` succeeds
and the sum of squared amplitude magnitudes over all basis labels is
within `1e-4` of one (indeed it is exactly one).  For gates that are only
tolerance-unitary the sum can drift past `1e-4` over many gates. -/
theorem C9_norm_preserved (c : Circuit)
    (hg : ∀ g ∈ c.gates, constructed g ∧ exactUnitary g ∧ targetsOk c.qubits g) :
    ∃ res, c.run = some res ∧ |resSum res - 1| ≤ 1 / 10000 := by
  refine ⟨_, run_always c, ?_⟩
  rw [resSum_run c _ (run_always c)]
  rw [vsum_run_fold c.qubits c.gates _ ?_]
  · rw [vsum_basis_zero]
    norm_num
  · intro g hgm
    obtain ⟨hc, hU, hR⟩ := hg g hgm
    obtain ⟨-, h2, -, h4, -⟩ := (gate_new_eq_some_iff _ _ _).mp hc
    exact ⟨h4, hR, h2, hU⟩

/-- C9 witness: a 1-qubit circuit holding one Pauli-X gate. -/
theorem C9_witness :
    (∀ g ∈ (Circuit.mk 1 [Gate.x 0]).gates,
      constructed g ∧ exactUnitary g ∧ targetsOk (Circuit.mk 1 [Gate.x 0]).qubits g) ∧
    ∃ res, (Circuit.mk 1 [Gate.x 0]).run = some res ∧ |resSum res - 1| ≤ 1 / 10000 := by
  have hh : ∀ g ∈ (Circuit.mk 1 [Gate.x 0]).gates,
      constructed g ∧ exactUnitary g ∧ targetsOk (Circuit.mk 1 [Gate.x 0]).qubits g := by
    intro g hgm
    rw [List.mem_singleton.mp hgm]
    refine ⟨gate_new_Xmat 0, exactUnitary_gate_x 0, ?_⟩
    intro x hx
    rw [show (Gate.x 0).targets = [0] from rfl] at hx
    rw [List.mem_singleton.mp hx]
    norm_num
  exact ⟨hh, C9_norm_preserved _ hh⟩

end RustOmic
